import Mathlib

/-!
# QuantNet-Solver: verification of spec claims against the source

Shallow embedding of the QuantNet-Solver C++ sources (exact rational
arithmetic in place of IEEE doubles; the control flow, constants and update
formulas are transcribed from the code).  The main components embedded here:

* the damped Newton solver (`src/solver/NewtonSolver.hpp`,
  `src/solver/FiniteDiff.hpp`, `src/solver/LineSearch.hpp`), specialised to
  one-dimensional residuals `F : ℚ → ℚ` (a 1-D system is an instance of the
  `R^n -> R^n` interface; the SVD condition-number diagnostic, which never
  affects control flow, is not modelled);
* the beta continuation schedule (`make_beta_schedule` in `src/main.cpp`);
* the game-tree data model (`GameTree.hpp`), the Kuhn and Leduc tree
  builders (`KuhnPoker.cpp`, `LeducPoker.cpp`);
* the logit strategy representation (`Strategy.hpp`, `Strategy.cpp`) with
  the exponential function abstracted to a parameter (exact real `exp` is
  not computable; every claim proved here only uses its positivity);
* the expected-value / best-response traversals (`ExpectedValue.cpp`).
-/

namespace QuantNet

/-! ## Scalar Newton solver (NewtonSolver.hpp specialised to 1-D)

`NewtonSolver::solve` is templated over the residual; for a 1-D system the
Eigen objects reduce to rationals: `J` is the scalar `j`, `J^T J = j*j`,
`J^T r = j*r`, `FullPivLU` of the 1×1 matrix `[a]` is invertible iff
`a ≠ 0`, and `lu.solve(-Jtr)` returns `-(j*r)/a`.  Norms become `|·|`. -/

/-- Structure `NewtonConfig` (NewtonSolver.hpp), with its default member values. -/
structure NewtonConfig where
  tol : ℚ := 1 / 10 ^ 10
  maxIters : ℕ := 100
  fdStep : ℚ := 1 / 10 ^ 7
  centralDiff : Bool := true
  lambdaInit : ℚ := 1 / 10 ^ 6
  lambdaMax : ℚ := 10 ^ 6
  lambdaFactor : ℚ := 10
  armijoC : ℚ := 1 / 10 ^ 4
  armijoRho : ℚ := 1 / 2
  useLineSearch : Bool := true
  deriving Repr

/-- Structure `IterationStats` (Diagnostics.hpp).  The `jacobian_cond` field (an SVD
condition-number estimate that is recorded but never read by the solver) is
not modelled. -/
structure IterationStats where
  iteration : ℕ := 0
  residualNorm : ℚ := 0
  stepNorm : ℚ := 0
  alpha : ℚ := 1
  lambda : ℚ := 0
  converged : Bool := false
  status : String := ""
  deriving Repr, DecidableEq

/-- Structure `SolverTrace` (Diagnostics.hpp). -/
structure SolverTrace where
  iterations : List IterationStats := []
  success : Bool := false
  totalIterations : ℕ := 0
  finalResidual : ℚ := 0
  terminationReason : String := ""
  deriving Repr, DecidableEq

/-- Method `SolverTrace::add_iteration`. -/
def SolverTrace.addIteration (tr : SolverTrace) (st : IterationStats) : SolverTrace :=
  { tr with
    iterations := tr.iterations ++ [st]
    totalIterations := tr.iterations.length + 1
    finalResidual := st.residualNorm }

/-- Structure `NewtonResult` (NewtonSolver.hpp). -/
structure NewtonResult where
  x : ℚ
  trace : SolverTrace
  converged : Bool := false
  iterations : ℕ := 0
  finalResidual : ℚ := 0
  deriving Repr, DecidableEq

/-- Function `compute_jacobian` (FiniteDiff.hpp) for a scalar system: central
difference `(F(x+h) - F(x-h)) / (2h)`, forward `(F(x+h) - F(x)) / h`. -/
def computeJacobian (F : ℚ → ℚ) (x h : ℚ) (central : Bool) : ℚ :=
  if central then (F (x + h) - F (x - h)) / (2 * h)
  else (F (x + h) - F x) / h

/-- Structure `LineSearchResult` (LineSearch.hpp). -/
structure LineSearchResult where
  alpha : ℚ := 1
  merit : ℚ := 0
  evaluations : ℕ := 0
  success : Bool := true
  deriving Repr, DecidableEq

/-- The backtracking loop of `armijo_backtrack` (LineSearch.hpp): try
`alpha`, halve on failure; after `max_iters` failures evaluate the merit at
the final (untested) `alpha` and report failure. -/
def armijoLoop (F : ℚ → ℚ) (x d phi0 dphi0 c rho : ℚ) :
    ℕ → ℚ → ℕ → LineSearchResult
  | 0, alpha, evals =>
      { alpha := alpha
        merit := (F (x + alpha * d)) ^ 2 / 2
        evaluations := evals + 1
        success := false }
  | (i + 1), alpha, evals =>
      let phiNew := (F (x + alpha * d)) ^ 2 / 2
      if phiNew ≤ phi0 + c * alpha * dphi0 then
        { alpha := alpha, merit := phiNew, evaluations := evals + 1, success := true }
      else
        armijoLoop F x d phi0 dphi0 c rho i (alpha * rho) (evals + 1)

/-- Function `armijo_backtrack` (LineSearch.hpp): merit `phi = ½ F(x)^2`, directional
derivative `dphi0 = r0 * (j * d)`; a non-descent direction returns
`alpha = 0` immediately. -/
def armijoBacktrack (F : ℚ → ℚ) (x d j c rho : ℚ) (maxIters : ℕ := 20) :
    LineSearchResult :=
  let r0 := F x
  let phi0 := r0 ^ 2 / 2
  let dphi0 := r0 * (j * d)
  if 0 ≤ dphi0 then
    { alpha := 0, merit := phi0, evaluations := 1, success := false }
  else
    armijoLoop F x d phi0 dphi0 c rho maxIters 1 1

/-- The Levenberg retry loop of `NewtonSolver::solve`: try
`A = JtJ + lambda`; if `A` is invertible (`A ≠ 0` for the 1×1 system) solve
`A d = -Jtr`, otherwise multiply `lambda` by the factor and retry (at most
10 attempts).  Returns the step (if any) and the final `lambda`. -/
def regSolve (jtj jtr lambdaFactor : ℚ) : ℕ → ℚ → Option ℚ × ℚ
  | 0, lam => (none, lam)
  | (n + 1), lam =>
      let A := jtj + lam
      if A ≠ 0 then (some (-jtr / A), lam)
      else regSolve jtj jtr lambdaFactor n (lam * lambdaFactor)

/-- Loop state of `NewtonSolver::solve`: current iterate, residual and its
norm, regularisation `lambda`, iteration counter and accumulated trace. -/
structure LoopState where
  x : ℚ
  r : ℚ
  residualNorm : ℚ
  lambda : ℚ
  iter : ℕ
  trace : SolverTrace
  deriving Repr, DecidableEq

/-- One step of the solve loop either finishes with a result or continues
with a new state. -/
inductive StepResult where
  | finished (res : NewtonResult)
  | next (s : LoopState)
  deriving Repr, DecidableEq

/-- The Jacobian computed at the current loop state (the marked lines of
`NewtonSolver::solve`). -/
def jacobianAt (cfg : NewtonConfig) (F : ℚ → ℚ) (s : LoopState) : ℚ :=
  computeJacobian F s.x cfg.fdStep cfg.centralDiff

/-- The regularised linear solve performed at the current loop state. -/
def regSolveAt (cfg : NewtonConfig) (F : ℚ → ℚ) (s : LoopState) : Option ℚ × ℚ :=
  let j := jacobianAt cfg F s
  regSolve (j * j) (j * s.r) cfg.lambdaFactor 10 s.lambda

/-- The Armijo line search performed at the current loop state (meaningful
when the regularised solve succeeded). -/
def lineSearchAt (cfg : NewtonConfig) (F : ℚ → ℚ) (s : LoopState) : LineSearchResult :=
  match (regSolveAt cfg F s).1 with
  | none => { alpha := 0, merit := 0, evaluations := 0, success := false }
  | some d => armijoBacktrack F s.x d (jacobianAt cfg F s) cfg.armijoC cfg.armijoRho 20

/-- One iteration of the `for` loop in `NewtonSolver::solve`: convergence
check, finite-difference Jacobian, regularised normal-equation solve with
retry, optional Armijo line search, `lambda` adjustment, trace record. -/
def newtonStep (cfg : NewtonConfig) (F : ℚ → ℚ) (s : LoopState) : StepResult :=
  let stats0 : IterationStats :=
    { iteration := s.iter, residualNorm := s.residualNorm, lambda := s.lambda }
  if s.residualNorm < cfg.tol then
    let stats := { stats0 with converged := true, status := "Converged" }
    .finished
      { x := s.x
        trace :=
          { s.trace.addIteration stats with
            success := true
            terminationReason := "Converged: residual below tolerance" }
        converged := true
        iterations := s.iter
        finalResidual := s.residualNorm }
  else
    match regSolveAt cfg F s with
    | (none, _) =>
        let stats := { stats0 with status := "Failed: Jacobian singular" }
        .finished
          { x := s.x
            trace :=
              { s.trace.addIteration stats with
                success := false
                terminationReason := "Failed: Jacobian singular" }
            converged := false
            iterations := s.iter
            finalResidual := s.residualNorm }
    | (some d, lam') =>
        if cfg.useLineSearch then
          let ls := lineSearchAt cfg F s
          let alpha := ls.alpha
          let xNew := s.x + alpha * d
          let rNew := F xNew
          let newResidualNorm := |rNew|
          let lamAdj :=
            if newResidualNorm < s.residualNorm then
              max cfg.lambdaInit (lam' / cfg.lambdaFactor)
            else
              min cfg.lambdaMax (lam' * cfg.lambdaFactor)
          let stats := { stats0 with
            stepNorm := |d|, alpha := alpha, status := "Iteration complete" }
          .next
            { x := xNew
              r := rNew
              residualNorm := newResidualNorm
              lambda := lamAdj
              iter := s.iter + 1
              trace := s.trace.addIteration stats }
        else
          let xNew := s.x + d
          let rNew := F xNew
          let stats := { stats0 with
            stepNorm := |d|, status := "Iteration complete" }
          .next
            { x := xNew
              r := rNew
              residualNorm := |rNew|
              lambda := lam'
              iter := s.iter + 1
              trace := s.trace.addIteration stats }

/-- The `for` loop of `NewtonSolver::solve`; the fuel is `max_iters`, and
exhausting it produces the "Max iterations reached" result. -/
def newtonLoop (cfg : NewtonConfig) (F : ℚ → ℚ) : ℕ → LoopState → NewtonResult
  | 0, s =>
      { x := s.x
        trace := { s.trace with
          success := false, terminationReason := "Max iterations reached" }
        converged := false
        iterations := cfg.maxIters
        finalResidual := s.residualNorm }
  | (n + 1), s =>
      match newtonStep cfg F s with
      | .finished res => res
      | .next s' => newtonLoop cfg F n s'

/-- Method `NewtonSolver::solve` for a scalar residual.  (The dimension-mismatch
throw cannot fire for a 1-D system.) -/
def newtonSolve (cfg : NewtonConfig) (F : ℚ → ℚ) (x0 : ℚ) : NewtonResult :=
  let r := F x0
  newtonLoop cfg F cfg.maxIters
    { x := x0, r := r, residualNorm := |r|, lambda := cfg.lambdaInit,
      iter := 0, trace := {} }

/-! ## Beta continuation schedule (`make_beta_schedule` in main.cpp) -/

/-- The geometric `while (beta < target) { push beta; beta *= 2; }` loop of
`make_beta_schedule`, with fuel.  `betaScheduleFuel` below supplies fuel that
provably suffices for the call site (`beta` starts at `0.05 > 0`). -/
def betaGeomLoop (target : ℚ) : ℕ → ℚ → List ℚ
  | 0, _ => []
  | (n + 1), beta =>
      if beta < target then beta :: betaGeomLoop target n (2 * beta)
      else []

/-- Fuel sufficient for `betaGeomLoop` starting from `0.05`: the loop runs at
most as long as `0.05 * 2^k < target`, and `2^k ≥ k + 1` bounds the number of
iterations by `⌈20 * target⌉`. -/
def betaScheduleFuel (target : ℚ) : ℕ :=
  (⌈20 * target⌉).toNat + 1

/-- Function `make_beta_schedule` (main.cpp): push `0.01`, then the geometric loop
from `0.05`, then always the target. -/
def makeBetaSchedule (target : ℚ) : List ℚ :=
  (1 / 100) :: (betaGeomLoop target (betaScheduleFuel target) (1 / 20) ++ [target])

/-! ## Concrete inputs used by the Newton-solver claims -/

/-- Solver configuration named by claim C1: the solver defaults with the
spec-stated tolerance `1e-8` (central differences, `lambda_init = 1e-6` and
line search are already the defaults). -/
def cfgC1 : NewtonConfig := { tol := 1 / 10 ^ 8 }

/-- Residual function exhibiting a failed Armijo backtracking: it agrees
with a slope-1 function at the three points probed by the central difference
at `x = 0` and is the constant `2` elsewhere, so the finite-difference model
predicts descent while every candidate step increases the merit. -/
def residualC2 : ℚ → ℚ := fun x =>
  if x = 0 then 1
  else if x = 1 / 10 ^ 7 then 1 + 1 / 10 ^ 7
  else if x = -(1 / 10 ^ 7) then 1 - 1 / 10 ^ 7
  else 2

/-- Residual function `fun x => 1` (any constant works): used to witness
the amended claim C2 on a concrete solver step whose line search returns
`alpha = 0`. -/
def residualOne : ℚ → ℚ := fun _ => 1

/-- Concrete loop state used by the witness of the amended claim C2. -/
def stateC2 : LoopState :=
  { x := 0, r := 1, residualNorm := 1, lambda := 1 / 10 ^ 6, iter := 0, trace := {} }

/-- The loop state reached from `stateC2` in one `newtonStep` on
`residualOne` (the constant residual gives a zero Jacobian, hence a zero
step and a non-descent line search with `alpha = 0`). -/
def stateC2' : LoopState :=
  { x := 0
    r := 1
    residualNorm := 1
    lambda := 1 / 10 ^ 5
    iter := 1
    trace :=
      { iterations := [{ iteration := 0, residualNorm := 1, stepNorm := 0,
                         alpha := 0, lambda := 1 / 10 ^ 6, converged := false,
                         status := "Iteration complete" }]
        success := false
        totalIterations := 1
        finalResidual := 1
        terminationReason := "" } }

/-! ## Game-tree data model (GameTypes.hpp, GameTree.hpp) -/

/-- Enum `Action` (GameTypes.hpp). -/
inductive Action where
  | Check
  | Bet
  | Call
  | Fold
  | Raise
  deriving Repr, DecidableEq

/-- Function `action_to_char` (GameTypes.hpp). -/
def actionToChar : Action → Char
  | .Check => 'c'
  | .Bet => 'b'
  | .Call => 'k'
  | .Fold => 'f'
  | .Raise => 'r'

/-- Function `action_to_string` (GameTypes.hpp). -/
def actionToString : Action → String
  | .Check => "check"
  | .Bet => "bet"
  | .Call => "call"
  | .Fold => "fold"
  | .Raise => "raise"

/-- Enum `NodeType` (GameTypes.hpp). -/
inductive NodeType where
  | Chance
  | Player
  | Terminal
  deriving Repr, DecidableEq

mutual
/-- Struct `GameNode` (GameTree.hpp): node-type tag, acting player,
info-set id, legal actions, owned child edges, terminal payoff, pot,
history string and card identifiers (`-1` = absent), with the C++ default
member values used where construction leaves a field unset. -/
inductive GameNode where
  | mk (ty : NodeType) (player : ℤ) (infoSetId : String)
      (legalActions : List Action) (children : EdgeList)
      (payoff : ℚ) (pot : ℤ) (history : String)
      (p0Card p1Card publicCard : ℤ)
  deriving Repr

/-- Vector `std::vector<ChildEdge>` (GameTree.hpp): each `ChildEdge`
carries `action` (default `Check`), `card` (default `-1`), `probability`
(default `1`) and the owned child node. -/
inductive EdgeList where
  | nil
  | cons (action : Action) (card : ℤ) (probability : ℚ) (child : GameNode)
      (rest : EdgeList)
  deriving Repr
end

/-- Projection of the `type` field. -/
def GameNode.ty : GameNode → NodeType
  | .mk t _ _ _ _ _ _ _ _ _ _ => t

/-- Projection of the `player` field. -/
def GameNode.player : GameNode → ℤ
  | .mk _ p _ _ _ _ _ _ _ _ _ => p

/-- Projection of the `info_set_id` field. -/
def GameNode.infoSetId : GameNode → String
  | .mk _ _ i _ _ _ _ _ _ _ _ => i

/-- Projection of the `legal_actions` field. -/
def GameNode.legalActions : GameNode → List Action
  | .mk _ _ _ a _ _ _ _ _ _ _ => a

/-- Projection of the `children` field. -/
def GameNode.children : GameNode → EdgeList
  | .mk _ _ _ _ c _ _ _ _ _ _ => c

/-- Projection of the `payoff` field. -/
def GameNode.payoff : GameNode → ℚ
  | .mk _ _ _ _ _ p _ _ _ _ _ => p

/-- Projection of the `pot` field. -/
def GameNode.pot : GameNode → ℤ
  | .mk _ _ _ _ _ _ p _ _ _ _ => p

/-- Projection of the `history` field. -/
def GameNode.history : GameNode → String
  | .mk _ _ _ _ _ _ _ h _ _ _ => h

/-- Projection of the `p0_card` field. -/
def GameNode.p0Card : GameNode → ℤ
  | .mk _ _ _ _ _ _ _ _ c _ _ => c

/-- Projection of the `p1_card` field. -/
def GameNode.p1Card : GameNode → ℤ
  | .mk _ _ _ _ _ _ _ _ _ c _ => c

/-- Projection of the `public_card` field. -/
def GameNode.publicCard : GameNode → ℤ
  | .mk _ _ _ _ _ _ _ _ _ _ c => c

/-- Length of an edge vector. -/
def EdgeList.length : EdgeList → ℕ
  | .nil => 0
  | .cons _ _ _ _ rest => rest.length + 1

/-- View of an edge vector as a list of `(action, card, probability, child)`
tuples. -/
def EdgeList.toList : EdgeList → List (Action × ℤ × ℚ × GameNode)
  | .nil => []
  | .cons a c p n rest => (a, c, p, n) :: rest.toList

/-- Inverse view: build an edge vector from a list of tuples (used to
mirror the C++ loops that `push_back` one edge per legal action or deal). -/
def EdgeList.ofList : List (Action × ℤ × ℚ × GameNode) → EdgeList
  | [] => .nil
  | (a, c, p, n) :: rest => .cons a c p n (EdgeList.ofList rest)

/-- Method `GameNode::get_child` (GameTree.hpp): first edge whose action
matches. -/
def GameNode.getChild (n : GameNode) (a : Action) : Option GameNode :=
  go n.children
where
  /-- Linear scan of the edge vector. -/
  go : EdgeList → Option GameNode
    | .nil => none
    | .cons a' _ _ child rest => if a' = a then some child else go rest

/-- Method `GameNode::get_chance_child` (GameTree.hpp): first edge whose
card matches. -/
def GameNode.getChanceChild (n : GameNode) (c : ℤ) : Option GameNode :=
  go n.children
where
  /-- Linear scan of the edge vector. -/
  go : EdgeList → Option GameNode
    | .nil => none
    | .cons _ c' _ child rest => if c' = c then some child else go rest

/-! ## Kuhn poker tree construction (KuhnPoker.cpp) -/

/-- Function `KuhnPoker::compare_cards`: higher card wins, `K > Q > J`. -/
def compareCards (c1 c2 : ℤ) : ℤ :=
  if c1 > c2 then 1 else if c1 < c2 then -1 else 0

/-- Function `KuhnPoker::card_name`. -/
def kuhnCardName (c : ℤ) : String :=
  if c = 0 then "J" else if c = 1 then "Q" else if c = 2 then "K" else "?"

/-- Function `KuhnPoker::make_info_set_id`:
format `"P{player}:{card}:{history}"`. -/
def kuhnInfoSetId (player : ℤ) (card : ℤ) (history : String) : String :=
  "P" ++ toString player ++ ":" ++ kuhnCardName card ++ ":" ++ history

/-- Method `KuhnPoker::make_showdown` applied to a child node whose cards
and history have already been assigned: terminal, `player = -1`, payoff
`pot/2` to the holder of the higher card. -/
def kuhnShowdown (p0Card p1Card : ℤ) (pot : ℤ) (history : String) : GameNode :=
  .mk .Terminal (-1) "" [] .nil
    (if compareCards p0Card p1Card > 0 then (pot : ℚ) / 2
     else if compareCards p0Card p1Card < 0 then -((pot : ℚ) / 2)
     else 0)
    pot history p0Card p1Card (-1)

/-- Method `KuhnPoker::make_fold_terminal`: payoff hard-coded to `-1` when
player 0 folds and `+1` when player 1 folds, independent of the pot. -/
def kuhnFoldTerminal (folder : ℤ) (pot : ℤ) (history : String)
    (p0Card p1Card : ℤ) : GameNode :=
  .mk .Terminal (-1) "" [] .nil (if folder = 0 then -1 else 1)
    pot history p0Card p1Card (-1)

/-- The child produced for one `action` of `KuhnPoker::build_subtree`
(while the acting player is `toAct`).  The fuel argument bounds the
recursion depth; Kuhn histories have length at most 3, so any fuel `≥ 4`
reproduces the C++ recursion exactly (the fuel-0 fallback is unreachable
then). -/
def kuhnAct : ℕ → ℤ → String → ℤ → ℤ → ℤ → ℤ → ℤ → Action → GameNode
  | 0, _, _, _, _, _, _, _, _ => .mk .Terminal 0 "" [] .nil 0 0 "" (-1) (-1) (-1)
  | (fuel + 1), toAct, history, p0, p1, pot, p0Bet, p1Bet, action =>
      let newHistory := history.push (actionToChar action)
      if toAct = 0 then
        match action with
        | .Check =>
            .mk .Player 1 (kuhnInfoSetId 1 p1 newHistory) [.Check, .Bet]
              (EdgeList.ofList ([Action.Check, Action.Bet].map fun b =>
                (b, -1, 1, kuhnAct fuel 1 newHistory p0 p1 pot p0Bet p1Bet b)))
              0 pot newHistory p0 p1 (-1)
        | .Bet =>
            .mk .Player 1 (kuhnInfoSetId 1 p1 newHistory) [.Call, .Fold]
              (EdgeList.ofList ([Action.Call, Action.Fold].map fun b =>
                (b, -1, 1, kuhnAct fuel 1 newHistory p0 p1 (pot + 1) (p0Bet + 1) p1Bet b)))
              0 (pot + 1) newHistory p0 p1 (-1)
        | .Call => kuhnShowdown p0 p1 (pot + 1) newHistory
        | .Fold => kuhnFoldTerminal 0 pot newHistory p0 p1
        | .Raise => .mk .Terminal 0 "" [] .nil 0 0 newHistory p0 p1 (-1)
      else
        match action with
        | .Check => kuhnShowdown p0 p1 pot newHistory
        | .Bet =>
            .mk .Player 0 (kuhnInfoSetId 0 p0 newHistory) [.Call, .Fold]
              (EdgeList.ofList ([Action.Call, Action.Fold].map fun b =>
                (b, -1, 1, kuhnAct fuel 0 newHistory p0 p1 (pot + 1) p0Bet (p1Bet + 1) b)))
              0 (pot + 1) newHistory p0 p1 (-1)
        | .Call => kuhnShowdown p0 p1 (pot + 1) newHistory
        | .Fold => kuhnFoldTerminal 1 pot newHistory p0 p1
        | .Raise => .mk .Terminal 0 "" [] .nil 0 0 newHistory p0 p1 (-1)

/-- The ordered deal list of `KuhnPoker::build_tree`: all ordered pairs of
distinct cards, in double-loop order. -/
def kuhnDeals : List (ℤ × ℤ) :=
  (List.range 3).flatMap fun i =>
    (List.range 3).filterMap fun j =>
      if (i : ℤ) = (j : ℤ) then none else some ((i : ℤ), (j : ℤ))

/-- The player-0 decision node created for one deal in
`KuhnPoker::build_tree`, together with its `build_subtree` children. -/
def kuhnDealNode (p0 p1 : ℤ) : GameNode :=
  .mk .Player 0 (kuhnInfoSetId 0 p0 "") [.Check, .Bet]
    (EdgeList.ofList ([Action.Check, Action.Bet].map fun a =>
      (a, -1, 1, kuhnAct 8 0 "" p0 p1 2 0 0 a)))
    0 2 "" p0 p1 (-1)

/-- Method `KuhnPoker::build_tree`: a chance root (pot 2 from the antes)
with the 6 ordered deals, each of probability `1/6` and edge card
`p0*10 + p1`. -/
def kuhnRoot : GameNode :=
  .mk .Chance (-1) "" []
    (EdgeList.ofList (kuhnDeals.map fun d =>
      (Action.Check, d.1 * 10 + d.2, 1 / 6, kuhnDealNode d.1 d.2)))
    0 2 "" (-1) (-1) (-1)

/-! ## Info-set enumeration (`get_info_sets`) and terminal collection -/

mutual
/-- Pre-order collection of `(info_set_id, player, legal_actions)` for all
player nodes, mirroring `traverse_tree` (GameTree.hpp). -/
def collectInfoSets : GameNode → List (String × ℤ × List Action)
  | .mk ty pl isId acts cs _ _ _ _ _ _ =>
      (if ty = NodeType.Player then [(isId, pl, acts)] else []) ++
        collectInfoSetsEdges cs

/-- Pre-order collection over an edge vector. -/
def collectInfoSetsEdges : EdgeList → List (String × ℤ × List Action)
  | .nil => []
  | .cons _ _ _ child rest =>
      collectInfoSets child ++ collectInfoSetsEdges rest
end

/-- Lexicographic comparison of strings by character code, the order used
by `std::map<std::string, ...>` (byte-wise lexicographic `operator<`; all
info-set ids here are ASCII, where the two orders coincide). -/
def stringLt (a b : String) : Bool :=
  go a.data b.data
where
  /-- Lexicographic comparison of character lists by code point. -/
  go : List Char → List Char → Bool
    | [], [] => false
    | [], _ :: _ => true
    | _ :: _, [] => false
    | x :: xs, y :: ys =>
        if x.toNat < y.toNat then true
        else if y.toNat < x.toNat then false
        else go xs ys

/-- Insertion into a key-sorted association list, keeping the first binding
of each key: the model of the `std::map` insert-if-absent of
`get_info_sets` (iteration over `std::map` is in ascending key order). -/
def mapInsertSorted :
    List (String × ℤ × List Action) → (String × ℤ × List Action) →
      List (String × ℤ × List Action)
  | [], e => [e]
  | x :: xs, e =>
      if e.1 = x.1 then x :: xs
      else if stringLt e.1 x.1 then e :: x :: xs
      else x :: mapInsertSorted xs e

/-- Method `KuhnPoker::get_info_sets`: collect the first occurrence of each
info-set id during a pre-order traversal and return the entries sorted by
id. -/
def kuhnInfoSets : List (String × ℤ × List Action) :=
  (collectInfoSets kuhnRoot).foldl mapInsertSorted []

/-- Data of one terminal node: history, payoff, pot and the private
cards. -/
structure TerminalInfo where
  history : String
  payoff : ℚ
  pot : ℤ
  p0Card : ℤ
  p1Card : ℤ
  deriving Repr, DecidableEq

mutual
/-- Pre-order collection of all terminal nodes of a tree. -/
def collectTerminals : GameNode → List TerminalInfo
  | .mk ty _ _ _ cs payoff pot hist p0 p1 _ =>
      (if ty = NodeType.Terminal then
        [{ history := hist, payoff := payoff, pot := pot,
           p0Card := p0, p1Card := p1 }]
       else []) ++ collectTerminalsEdges cs

/-- Pre-order collection over an edge vector. -/
def collectTerminalsEdges : EdgeList → List TerminalInfo
  | .nil => []
  | .cons _ _ _ child rest =>
      collectTerminals child ++ collectTerminalsEdges rest
end

/-! ## Leduc poker tree construction (LeducPoker.cpp) -/

/-- Constant `LeducPoker::ANTE = 1` from `LeducPoker.hpp` (the header is
the second section of `src/unnamed/part_002`): each player antes 1 chip.
A card `c` encodes `rank * 2 + suit` over the 6-card deck. -/
def leducAnte : ℤ := 1

/-- Constant `LeducPoker::SMALL_BET = 2` from `LeducPoker.hpp` (in
`src/unnamed/part_002`): bet size of round 1. -/
def leducSmallBet : ℤ := 2

/-- Constant `LeducPoker::BIG_BET = 4` from `LeducPoker.hpp` (in
`src/unnamed/part_002`): bet size of round 2. -/
def leducBigBet : ℤ := 4

/-- Constant `LeducPoker::MAX_RAISES = 2` from `LeducPoker.hpp` (in
`src/unnamed/part_002`): the raise cap per betting round. -/
def leducMaxRaises : ℤ := 2

/-- Constant `LeducPoker::NUM_CARDS = 6` from `LeducPoker.hpp` (in
`src/unnamed/part_002`): deck size, 3 ranks times 2 suits. -/
def leducNumCards : ℕ := 6

/-- Method `LeducPoker::card_rank`, `c / 2`, from `LeducPoker.hpp` (in
`src/unnamed/part_002`); cards are `0..5`, so the integer-division
convention is immaterial. -/
def leducCardRank (c : ℤ) : ℤ := c / 2

/-- Method `LeducPoker::card_suit`, `c % 2`, from `LeducPoker.hpp` (in
`src/unnamed/part_002`). -/
def leducCardSuit (c : ℤ) : ℤ := c % 2

/-- Function `LeducPoker::card_name`: rank letter plus `s`/`h` suit
letter. -/
def leducCardName (c : ℤ) : String :=
  (if leducCardRank c = 0 then "J"
   else if leducCardRank c = 1 then "Q"
   else if leducCardRank c = 2 then "K" else "?") ++
    (if leducCardSuit c = 0 then "s" else "h")

/-- Function `LeducPoker::compare_hands`: a private card pairing the public
card wins; otherwise the higher private rank wins; equal ranks tie. -/
def leducCompareHands (p0Card p1Card publicCard : ℤ) : ℤ :=
  let p0Pair := leducCardRank p0Card = leducCardRank publicCard
  let p1Pair := leducCardRank p1Card = leducCardRank publicCard
  if p0Pair ∧ ¬ p1Pair then 1
  else if ¬ p0Pair ∧ p1Pair then -1
  else if leducCardRank p0Card > leducCardRank p1Card then 1
  else if leducCardRank p0Card < leducCardRank p1Card then -1
  else 0

/-- Function `LeducPoker::make_info_set_id`: format
`"P{player}:{priv}:{pub}:R{round}:{history}"`, where the private and (when
present) public cards are reduced to their rank letter and an absent public
card is `"-"`.  The C++ rank switches have no default case, so an
out-of-range rank leaves the private part empty and the public part at its
`card_name` fallback. -/
def leducInfoSetId (player privateCard publicCard : ℤ) (history : String)
    (round : ℤ) : String :=
  let pubStr0 := if publicCard < 0 then "-" else leducCardName publicCard
  let privStr :=
    if leducCardRank privateCard = 0 then "J"
    else if leducCardRank privateCard = 1 then "Q"
    else if leducCardRank privateCard = 2 then "K" else ""
  let pubStr :=
    if 0 ≤ publicCard then
      if leducCardRank publicCard = 0 then "J"
      else if leducCardRank publicCard = 1 then "Q"
      else if leducCardRank publicCard = 2 then "K" else pubStr0
    else pubStr0
  "P" ++ toString player ++ ":" ++ privStr ++ ":" ++ pubStr ++ ":R" ++
    toString round ++ ":" ++ history

/-- Method `LeducPoker::make_showdown`. -/
def leducShowdown (p0Card p1Card publicCard : ℤ) (pot : ℤ)
    (history : String) : GameNode :=
  .mk .Terminal (-1) "" [] .nil
    (if leducCompareHands p0Card p1Card publicCard > 0 then (pot : ℚ) / 2
     else if leducCompareHands p0Card p1Card publicCard < 0 then
       -((pot : ℚ) / 2)
     else 0)
    pot history p0Card p1Card publicCard

/-- Method `LeducPoker::make_fold_terminal`: the folder loses `pot/2`. -/
def leducFoldTerminal (folder : ℤ) (pot : ℤ) (history : String)
    (p0Card p1Card publicCard : ℤ) : GameNode :=
  .mk .Terminal (-1) "" [] .nil
    (if folder = 0 then -((pot : ℚ) / 2) else (pot : ℚ) / 2)
    pot history p0Card p1Card publicCard

/-- The remaining public cards (the count is always 4) of
`LeducPoker::continue_after_round1`. -/
def leducRemainingCards (p0Card p1Card : ℤ) : List ℤ :=
  (List.range leducNumCards).filterMap fun n =>
    if (n : ℤ) = p0Card ∨ (n : ℤ) = p1Card then none else some (n : ℤ)

/-- The child produced for one `action` of
`LeducPoker::build_betting_round` while `current` is the acting player of
the parent node.  The local `afterRound1` is
`LeducPoker::continue_after_round1`: a chance node dealing each remaining
public card with probability `1 / cards_remaining`, each followed by
round-2 betting (history separator `"|"`, big-bet size, player 0 first).
Note the first-check test of the C++ code is
`to_call == 0 && history.empty()`: it compares against the emptiness of the
whole history string, which in round 2 (history `"...|"`) never holds.  The
fuel bounds the recursion depth; any fuel above the longest betting line
reproduces the C++ recursion exactly. -/
def leducAct : ℕ → ℤ → String → ℤ → ℤ → ℤ → ℤ → ℤ → ℤ → ℤ → ℤ → Action →
    GameNode
  | 0, _, _, p0, p1, pub, _, _, _, _, _, _ =>
      .mk .Terminal 0 "" [] .nil 0 0 "" p0 p1 pub
  | (fuel + 1), current, history, p0, p1, pub, pot, toCall, raisesLeft,
      round, betSize, action =>
      let afterRound1 : ℤ → String → GameNode := fun pot1 hist1 =>
        let remaining := leducRemainingCards p0 p1
        let dealProb : ℚ := 1 / (remaining.length : ℚ)
        .mk .Chance (-1) "" []
          (EdgeList.ofList (remaining.map fun pubCard =>
            (Action.Check, pubCard, dealProb,
              .mk .Player 0
                (leducInfoSetId 0 p0 pubCard (hist1 ++ "|") 2)
                [.Check, .Bet]
                (EdgeList.ofList ([Action.Check, Action.Bet].map fun b =>
                  (b, -1, 1,
                    leducAct fuel 0 (hist1 ++ "|") p0 p1 pubCard pot1 0
                      leducMaxRaises 2 leducBigBet b)))
                0 pot1 (hist1 ++ "|") p0 p1 pubCard)))
          0 pot1 hist1 p0 p1 (-1)
      let newHistory := history.push (actionToChar action)
      let opponent : ℤ := if current = 0 then 1 else 0
      let oppCard := if opponent = 0 then p0 else p1
      match action with
      | .Fold => leducFoldTerminal current pot newHistory p0 p1 pub
      | .Check =>
          if toCall = 0 ∧ history = "" then
            .mk .Player opponent
              (leducInfoSetId opponent oppCard pub newHistory round)
              [.Check, .Bet]
              (EdgeList.ofList ([Action.Check, Action.Bet].map fun b =>
                (b, -1, 1,
                  leducAct fuel opponent newHistory p0 p1 pub pot 0
                    raisesLeft round betSize b)))
              0 pot newHistory p0 p1 pub
          else if toCall = 0 then
            if round = 1 then
              afterRound1 pot newHistory
            else
              leducShowdown p0 p1 pub pot newHistory
          else
            .mk .Terminal 0 "" [] .nil 0 0 newHistory p0 p1 pub
      | .Bet =>
          let newPot := pot + betSize
          let acts : List Action :=
            if raisesLeft > 0 then [.Fold, .Call, .Raise] else [.Fold, .Call]
          .mk .Player opponent
            (leducInfoSetId opponent oppCard pub newHistory round) acts
            (EdgeList.ofList (acts.map fun b =>
              (b, -1, 1,
                leducAct fuel opponent newHistory p0 p1 pub newPot betSize
                  raisesLeft round betSize b)))
            0 newPot newHistory p0 p1 pub
      | .Call =>
          let newPot := pot + toCall
          if round = 1 then
            afterRound1 newPot newHistory
          else
            leducShowdown p0 p1 pub newPot newHistory
      | .Raise =>
          let newPot := pot + toCall + betSize
          let newRaises := raisesLeft - 1
          let acts : List Action :=
            if newRaises > 0 then [.Fold, .Call, .Raise] else [.Fold, .Call]
          .mk .Player opponent
            (leducInfoSetId opponent oppCard pub newHistory round) acts
            (EdgeList.ofList (acts.map fun b =>
              (b, -1, 1,
                leducAct fuel opponent newHistory p0 p1 pub newPot betSize
                  newRaises round betSize b)))
            0 newPot newHistory p0 p1 pub

/-- The ordered deal list of `LeducPoker::build_tree`: all 30 ordered pairs
of distinct cards, in double-loop order. -/
def leducDeals : List (ℤ × ℤ) :=
  (List.range leducNumCards).flatMap fun i =>
    (List.range leducNumCards).filterMap fun j =>
      if (i : ℤ) = (j : ℤ) then none else some ((i : ℤ), (j : ℤ))

/-- Method `LeducPoker::build_tree`: a chance root with the 30 ordered
private deals (probability `1/30`, edge card `p0*10 + p1`), each followed
by round-1 betting from player 0 with the small-bet size. -/
def leducRoot : GameNode :=
  .mk .Chance (-1) "" []
    (EdgeList.ofList (leducDeals.map fun d =>
      (Action.Check, d.1 * 10 + d.2, 1 / 30,
        .mk .Player 0 (leducInfoSetId 0 d.1 (-1) "" 1) [.Check, .Bet]
          (EdgeList.ofList ([Action.Check, Action.Bet].map fun b =>
            (b, -1, 1,
              leducAct 20 0 "" d.1 d.2 (-1) (2 * leducAnte) 0 leducMaxRaises
                1 leducSmallBet b)))
          0 (2 * leducAnte) "" d.1 d.2 (-1))))
    0 (2 * leducAnte) "" (-1) (-1) (-1)

/-- The round-2 player-0 node reached in the Leduc tree after the deal
`(p0, p1) = (Js, Jh)` (edge card `1`), mutual checks in round 1, and the
public card `Qs` (card `2`). -/
def leducRound2Node : Option GameNode :=
  (((leducRoot.getChanceChild 1).bind (fun n => n.getChild .Check)).bind
    (fun n => n.getChild .Check)).bind (fun n => n.getChanceChild 2)

/-! ## Strategy representation (Strategy.hpp, Strategy.cpp) -/

/-- Struct `InfoSet` (GameTypes.hpp). -/
structure InfoSet where
  id : String
  player : ℤ
  legalActions : List Action
  deriving Repr, DecidableEq

/-- The ordered info-set list underlying `InfoSetIndex` (GameTypes.hpp);
block `i` of the flat layout starts at the sum of the action counts of the
earlier entries (`info_set_start`) and the total dimension is the full
sum (`total_dim`). -/
abbrev InfoSetIndex := List InfoSet

/-- Method `InfoSetIndex::info_set_start`. -/
def infoSetStart (index : InfoSetIndex) (i : ℕ) : ℕ :=
  ((index.take i).map (fun is => is.legalActions.length)).sum

/-- Method `InfoSetIndex::total_dim`. -/
def totalDim (index : InfoSetIndex) : ℕ :=
  (index.map (fun is => is.legalActions.length)).sum

/-- Eigen `maxCoeff` of a nonempty coefficient list (`logits.maxCoeff()` in
`stable_softmax`; Eigen leaves the empty case undefined, here it is `0`). -/
def listMax : List ℚ → ℚ
  | [] => 0
  | x :: xs => xs.foldl max x

/-- Function `stable_softmax` (Strategy.hpp): subtract the row maximum,
exponentiate, normalise.  The exponential is abstracted as the parameter
`sexp` (exact real `exp` is not computable; the invariants proved about the
softmax use only that `sexp` is strictly positive, which holds for
`std::exp`). -/
def stableSoftmax (sexp : ℚ → ℚ) (logits : List ℚ) : List ℚ :=
  let maxLogit := listMax logits
  let expVals := logits.map (fun x => sexp (x - maxLogit))
  expVals.map (fun e => e / expVals.sum)

/-- Class `Strategy` (Strategy.hpp): a map `logits_` from info-set id to
the logit vector and a parallel map `actions_` to the legal-action list. -/
structure Strategy where
  logits : List (String × List ℚ)
  actions : List (String × List Action)
  deriving Repr

/-- Lookup in an association list (`std::map::find` keyed on the id). -/
def assocFind {α : Type} (m : List (String × α)) (k : String) : Option α :=
  match m with
  | [] => none
  | (k', v) :: rest => if k' == k then some v else assocFind rest k

/-- Insert-or-assign into an association list (`std::map::operator[]`
followed by assignment). -/
def assocSet {α : Type} (m : List (String × α)) (k : String) (v : α) :
    List (String × α) :=
  match m with
  | [] => [(k, v)]
  | (k', v') :: rest =>
      if k' == k then (k, v) :: rest else (k', v') :: assocSet rest k v

/-- The loop of `Strategy::from_logits`, carrying the running block start
(`info_set_start(i)` equals the start accumulated over the previous
entries): copy the contiguous logit block and the action list of each index
entry.  The flat vector `w` is modelled as a total function on
coordinates. -/
def fromLogitsAux (w : ℕ → ℚ) : InfoSetIndex → ℕ → Strategy → Strategy
  | [], _, s => s
  | is :: rest, start, s =>
      let k := is.legalActions.length
      let isLogits := (List.range k).map (fun a => w (start + a))
      fromLogitsAux w rest (start + k)
        { logits := assocSet s.logits is.id isLogits
          actions := assocSet s.actions is.id is.legalActions }

/-- Method `Strategy::from_logits`. -/
def Strategy.fromLogits (w : ℕ → ℚ) (index : InfoSetIndex) : Strategy :=
  fromLogitsAux w index 0 ⟨[], []⟩

/-- Method `Strategy::probs`: stable softmax of the stored logits, or the
UnknownInfoSet error (`throw std::runtime_error("Unknown information set: "
+ id)`).  The method is `const`: the strategy itself is never modified. -/
def Strategy.probs (s : Strategy) (sexp : ℚ → ℚ) (id : String) :
    Except String (List ℚ) :=
  match assocFind s.logits id with
  | none => .error ("Unknown information set: " ++ id)
  | some l => .ok (stableSoftmax sexp l)

/-- Method `Strategy::prob`: probability of one action at an info set;
errors when the id is missing from either map, or when the action is not in
the stored legal-action list.  Also `const`. -/
def Strategy.prob (s : Strategy) (sexp : ℚ → ℚ) (id : String) (a : Action) :
    Except String ℚ :=
  match assocFind s.logits id, assocFind s.actions id with
  | some l, some acts =>
      match acts.findIdx? (fun b => b == a) with
      | some i => .ok ((stableSoftmax sexp l).getD i 0)
      | none => .error ("Action not legal at information set: " ++ id)
  | _, _ => .error ("Unknown information set: " ++ id)

/-- Method `Strategy::logits` (the accessor): the stored logit vector, or
the UnknownInfoSet error.  Also `const`. -/
def Strategy.logitsOf (s : Strategy) (id : String) : Except String (List ℚ) :=
  match assocFind s.logits id with
  | none => .error ("Unknown information set: " ++ id)
  | some l => .ok l

/-! ## Expected-value and best-response traversals (ExpectedValue.cpp)

The traversals consume a strategy through `sigma.probs(id)`; here the
strategy is its probability table `σ : String → List ℚ` (the softmax output
of a `Strategy`, which always exists for ids of the index the strategy was
built from). -/

/-- The override distribution of `detail::ev_recursive`: a zero vector over
the node's legal actions with a `1` at the first occurrence of the override
action (the C++ loop breaks at the first match); all zeros when the action
is not legal. -/
def overrideProbs : List Action → Action → List ℚ
  | [], _ => []
  | b :: rest, a =>
      if b == a then 1 :: List.replicate rest.length 0
      else 0 :: overrideProbs rest a

mutual
/-- Function `detail::ev_recursive`: reach-weighted expected payoff to
player 0, with an optional `(info_set_id, action)` override. -/
def evRec (σ : String → List ℚ) (ov : Option (String × Action)) :
    GameNode → ℚ → ℚ → ℚ → ℚ
  | .mk ty pl isId acts cs payoff _ _ _ _ _, r0, r1, rc =>
      match ty with
      | .Terminal => r0 * r1 * rc * payoff
      | .Chance => evChance σ ov cs r0 r1 rc
      | .Player =>
          let actionProbs :=
            match ov with
            | some (oid, oa) =>
                if oid == isId then overrideProbs acts oa else σ isId
            | none => σ isId
          evPlayer σ ov pl actionProbs cs r0 r1 rc

/-- Chance-node accumulation of `ev_recursive`: children weighted into the
chance reach. -/
def evChance (σ : String → List ℚ) (ov : Option (String × Action)) :
    EdgeList → ℚ → ℚ → ℚ → ℚ
  | .nil, _, _, _ => 0
  | .cons _ _ prob child rest, r0, r1, rc =>
      evRec σ ov child r0 r1 (rc * prob) + evChance σ ov rest r0 r1 rc

/-- Player-node accumulation of `ev_recursive`: child `i` weighted by
`action_probs(i)` into the acting player's reach.  The pairing stops at the
shorter of the two sequences (the C++ loop runs over the children and its
indexing into `action_probs` is undefined behaviour if that vector is
shorter; in every constructed game the lengths agree). -/
def evPlayer (σ : String → List ℚ) (ov : Option (String × Action))
    (pl : ℤ) : List ℚ → EdgeList → ℚ → ℚ → ℚ → ℚ
  | p :: ps, .cons _ _ _ child rest, r0, r1, rc =>
      (if pl = 0 then evRec σ ov child (r0 * p) r1 rc
       else evRec σ ov child r0 (r1 * p) rc) +
        evPlayer σ ov pl ps rest r0 r1 rc
  | _, _, _, _, _ => 0
end

/-- Function `compute_ev` (ExpectedValue.cpp). -/
def computeEv (root : GameNode) (σ : String → List ℚ) : ℚ :=
  evRec σ none root 1 1 1

/-- Function `compute_ev_with_override` (ExpectedValue.cpp). -/
def computeEvWithOverride (root : GameNode) (σ : String → List ℚ)
    (overrideInfoSet : String) (overrideAction : Action) : ℚ :=
  evRec σ (some (overrideInfoSet, overrideAction)) root 1 1 1

mutual
/-- Function `detail::br_recursive`: the value `br_player` secures against
the fixed `σ`, with the opponent-and-chance reach as counterfactual weight.
At the BR player's own nodes the C++ code folds `max` starting from
`-infinity`; for the (always nonempty) children this is the list maximum,
modelled by `brVals`/`listMax`. -/
def brRec (σ : String → List ℚ) (brPlayer : ℤ) :
    GameNode → ℚ → ℚ → ℚ
  | .mk ty pl isId _ cs payoff _ _ _ _ _, reachOpp, reachChance =>
      match ty with
      | .Terminal =>
          reachOpp * reachChance *
            (if brPlayer = 1 then -payoff else payoff)
      | .Chance => brChance σ brPlayer cs reachOpp reachChance
      | .Player =>
          if pl = brPlayer then
            listMax (brVals σ brPlayer cs reachOpp reachChance)
          else
            brOpp σ brPlayer (σ isId) cs reachOpp reachChance

/-- Chance-node accumulation of `br_recursive`. -/
def brChance (σ : String → List ℚ) (brPlayer : ℤ) :
    EdgeList → ℚ → ℚ → ℚ
  | .nil, _, _ => 0
  | .cons _ _ prob child rest, ro, rc =>
      brRec σ brPlayer child ro (rc * prob) + brChance σ brPlayer rest ro rc

/-- Child values at a BR-player node (maximised by the caller). -/
def brVals (σ : String → List ℚ) (brPlayer : ℤ) :
    EdgeList → ℚ → ℚ → List ℚ
  | .nil, _, _ => []
  | .cons _ _ _ child rest, ro, rc =>
      brRec σ brPlayer child ro rc :: brVals σ brPlayer rest ro rc

/-- Opponent-node accumulation of `br_recursive`: the opponent's strategy
weights the opponent reach. -/
def brOpp (σ : String → List ℚ) (brPlayer : ℤ) :
    List ℚ → EdgeList → ℚ → ℚ → ℚ
  | p :: ps, .cons _ _ _ child rest, ro, rc =>
      brRec σ brPlayer child (ro * p) rc + brOpp σ brPlayer ps rest ro rc
  | _, _, _, _ => 0
end

/-- Function `best_response_value` (ExpectedValue.cpp). -/
def bestResponseValue (root : GameNode) (σ : String → List ℚ)
    (brPlayer : ℤ) : ℚ :=
  brRec σ brPlayer root 1 1

mutual
/-- Well-formedness of a tree with respect to a strategy table, covering
the data-model invariants the traversal claims rely on: chance-edge
probabilities are nonnegative, and at every player node the acting player
is 0 or 1, the node has at least one child, and `σ` supplies a nonnegative
probability vector of the children's length summing to `1`. -/
def wfStrat (σ : String → List ℚ) : GameNode → Bool
  | .mk ty pl isId _ cs _ _ _ _ _ _ =>
      match ty with
      | .Terminal => true
      | .Chance => wfChanceEdges σ cs
      | .Player =>
          decide ((σ isId).length = cs.length) &&
            (σ isId).all (fun p => decide (0 ≤ p)) &&
            decide ((σ isId).sum = 1) &&
            (decide (pl = 0) || decide (pl = 1)) &&
            decide (cs.length ≠ 0) &&
            wfEdges σ cs

/-- Well-formedness of chance edges. -/
def wfChanceEdges (σ : String → List ℚ) : EdgeList → Bool
  | .nil => true
  | .cons _ _ prob child rest =>
      decide (0 ≤ prob) && wfStrat σ child && wfChanceEdges σ rest

/-- Well-formedness of player-node edges. -/
def wfEdges (σ : String → List ℚ) : EdgeList → Bool
  | .nil => true
  | .cons _ _ _ child rest => wfStrat σ child && wfEdges σ rest
end

mutual
/-- Replacement of every player node of one info set by a zero-payoff
terminal; used to state that such nodes' entire subtrees contribute `0` to
the traversal. -/
def pruneAt (infoSet : String) : GameNode → GameNode
  | .mk ty pl isId acts cs payoff pot hist p0 p1 pub =>
      if ty = NodeType.Player ∧ isId = infoSet then
        .mk .Terminal (-1) "" [] .nil 0 pot hist p0 p1 pub
      else
        .mk ty pl isId acts (pruneEdges infoSet cs) payoff pot hist p0 p1 pub

/-- Pruning over an edge vector. -/
def pruneEdges (infoSet : String) : EdgeList → EdgeList
  | .nil => .nil
  | .cons a c prob child rest =>
      .cons a c prob (pruneAt infoSet child) (pruneEdges infoSet rest)
end

mutual
/-- Check that an action is absent from the legal-action list of every
player node carrying a given info-set id. -/
def actionAbsentAt (infoSet : String) (a : Action) : GameNode → Bool
  | .mk ty _ isId acts cs _ _ _ _ _ _ =>
      (if ty = NodeType.Player ∧ isId = infoSet then
        decide (a ∉ acts)
       else true) && actionAbsentEdges infoSet a cs

/-- The same check over an edge vector. -/
def actionAbsentEdges (infoSet : String) (a : Action) : EdgeList → Bool
  | .nil => true
  | .cons _ _ _ child rest =>
      actionAbsentAt infoSet a child && actionAbsentEdges infoSet a rest
end

/-- Sample two-action game tree used as the concrete input of witnesses: a
player-0 decision node with info set `"I"` and two terminal children of
payoffs `1` and `0`. -/
def demoTree : GameNode :=
  .mk .Player 0 "I" [.Check, .Bet]
    (.cons .Check (-1) 1 (.mk .Terminal (-1) "" [] .nil 1 2 "c" 0 1 (-1))
      (.cons .Bet (-1) 1 (.mk .Terminal (-1) "" [] .nil 0 2 "b" 0 1 (-1))
        .nil))
    0 2 "" 0 1 (-1)

/-- Sample strategy table for `demoTree`: uniform over the two actions. -/
def demoSigma : String → List ℚ := fun _ => [1 / 2, 1 / 2]

/-! ## Theorems for the Newton-solver and continuation claims -/

section NewtonTheorems

attribute [local semireducible] Rat.mul Rat.add Rat.sub Rat.inv Rat.ofScientific

/-- On the linear residual the central finite difference is exact: the
Jacobian evaluates to `1` at every loop state. -/
theorem jacobianAt_linear (c : ℚ) (s : LoopState) :
    jacobianAt cfgC1 (fun x => x - c) s = 1 := by
  have h : (s.x + 1 / 10 ^ 7 - c) - (s.x - 1 / 10 ^ 7 - c) = 2 * (1 / 10 ^ 7) := by
    ring
  simp only [jacobianAt, computeJacobian, cfgC1]
  norm_num [h]

/-- Claim C1, counterexample: with the configuration stated by the claim
(tolerance `1e-8`, `lambda_init = 1e-6`, central differences, line search),
on `F(x) = x - c` with `c = 0` and `x0 = 1` the solver needs two iterations,
and the iterate produced by a single iteration is farther than `1e-8` from
`c`: the Levenberg term damps the exact Newton step by `1/(1+lambda)`. -/
theorem newton_linear_two_iterations :
    (newtonSolve cfgC1 (fun x => x - 0) 1).iterations = 2 ∧
    (newtonSolve cfgC1 (fun x => x - 0) 1).converged = true ∧
    1 / 10 ^ 8 <
      |(newtonSolve { cfgC1 with maxIters := 1 } (fun x => x - 0) 1).x - 0| := by
  decide

/-- Claim C1, amended: on `F(x) = x - c`, from any loop state that has not
yet converged and carries regularisation `lam ≥ 0`, one iteration of
`NewtonSolver::solve` takes the full Armijo step `alpha = 1` and contracts
the error by exactly `lam / (1 + lam)` (about `1e-6` at the default
`lambda_init`); one iteration therefore reaches `c` within `1e-8` only when
`|x0 - c| < 1e-8 * (1 + lam) / lam`, not for every starting point. -/
theorem newton_linear_contraction (c x0 lam : ℚ) (tr : SolverTrace) (k : ℕ)
    (hlam : 0 ≤ lam) (hfar : cfgC1.tol ≤ |x0 - c|) :
    ∃ s', newtonStep cfgC1 (fun x => x - c)
        ⟨x0, x0 - c, |x0 - c|, lam, k, tr⟩ = .next s' ∧
      s'.x - c = (x0 - c) * (lam / (1 + lam)) ∧
      s'.residualNorm = |x0 - c| * (lam / (1 + lam)) ∧
      s'.trace.iterations.length = tr.iterations.length + 1 := by
  have h1l : (0:ℚ) < 1 + lam := by linarith
  have hne : x0 - c ≠ 0 := by
    intro h
    rw [h, abs_zero] at hfar
    norm_num [cfgC1] at hfar
  have hsq : 0 < (x0 - c) ^ 2 := by positivity
  have habs : 0 < |x0 - c| := abs_pos.mpr hne
  have hnc : ¬ (|x0 - c| < cfgC1.tol) := not_lt.mpr hfar
  have hjac : jacobianAt cfgC1 (fun x => x - c)
      ⟨x0, x0 - c, |x0 - c|, lam, k, tr⟩ = 1 := jacobianAt_linear c _
  have hA : (1:ℚ) * 1 + lam ≠ 0 := by intro h0; rw [one_mul] at h0; linarith
  have hreg : regSolveAt cfgC1 (fun x => x - c)
      ⟨x0, x0 - c, |x0 - c|, lam, k, tr⟩ =
      (some (-(1 * (x0 - c)) / (1 * 1 + lam)), lam) := by
    simp only [regSolveAt, hjac]
    show regSolve (1 * 1) (1 * (x0 - c)) cfgC1.lambdaFactor (Nat.succ 9) lam = _
    simp only [regSolve]
    rw [if_pos hA]
  have hd1 : (1:ℚ) * 1 + lam = 1 + lam := by ring
  have hxnew : x0 + 1 * (-(1 * (x0 - c)) / (1 * 1 + lam)) - c
      = (x0 - c) * (lam / (1 + lam)) := by
    rw [hd1]
    field_simp
    ring
  have hdphi : ¬ (0 ≤ (x0 - c) * (1 * (-(1 * (x0 - c)) / (1 * 1 + lam)))) := by
    rw [not_le, hd1]
    have : (x0 - c) * (1 * (-(1 * (x0 - c)) / (1 + lam)))
        = -((x0 - c) ^ 2 / (1 + lam)) := by ring
    rw [this, neg_lt_zero]
    positivity
  have harm : ((x0 + 1 * (-(1 * (x0 - c)) / (1 * 1 + lam))) - c) ^ 2 / 2 ≤
      (x0 - c) ^ 2 / 2 +
        cfgC1.armijoC * 1 * ((x0 - c) * (1 * (-(1 * (x0 - c)) / (1 * 1 + lam)))) := by
    rw [hxnew, hd1]
    have hC : cfgC1.armijoC = 1 / 10 ^ 4 := rfl
    rw [hC, ← sub_nonneg]
    have hrw : (x0 - c) ^ 2 / 2 +
        1 / 10 ^ 4 * 1 * ((x0 - c) * (1 * (-(1 * (x0 - c)) / (1 + lam)))) -
        ((x0 - c) * (lam / (1 + lam))) ^ 2 / 2
        = (x0 - c) ^ 2 * (9998 + 19998 * lam) / (2 * 10 ^ 4 * (1 + lam) ^ 2) := by
      field_simp
      ring
    rw [hrw]
    apply div_nonneg _ (by positivity)
    have : (0:ℚ) ≤ 9998 + 19998 * lam := by linarith
    positivity
  have hls : lineSearchAt cfgC1 (fun x => x - c)
      ⟨x0, x0 - c, |x0 - c|, lam, k, tr⟩ =
      { alpha := 1,
        merit := ((x0 + 1 * (-(1 * (x0 - c)) / (1 * 1 + lam))) - c) ^ 2 / 2,
        evaluations := 2, success := true } := by
    simp only [lineSearchAt, hreg]
    simp only [armijoBacktrack, hjac]
    rw [if_neg hdphi]
    show armijoLoop _ _ _ _ _ _ _ (Nat.succ 19) 1 1 = _
    simp only [armijoLoop]
    rw [if_pos harm]
  have hcontr : |x0 + 1 * (-(1 * (x0 - c)) / (1 * 1 + lam)) - c| < |x0 - c| := by
    rw [hxnew, abs_mul]
    have h2 : |lam / (1 + lam)| < 1 := by
      rw [abs_of_nonneg (div_nonneg hlam h1l.le), div_lt_one h1l]
      linarith
    calc |x0 - c| * |lam / (1 + lam)| < |x0 - c| * 1 :=
          mul_lt_mul_of_pos_left h2 habs
      _ = |x0 - c| := mul_one _
  simp only [newtonStep, hreg, hls]
  rw [if_neg hnc]
  refine ⟨_, rfl, ?_, ?_, ?_⟩
  · exact hxnew
  · show |x0 + 1 * (-(1 * (x0 - c)) / (1 * 1 + lam)) - c| = |x0 - c| * (lam / (1 + lam))
    rw [hxnew, abs_mul, abs_of_nonneg (div_nonneg hlam h1l.le)]
  · simp [SolverTrace.addIteration]

/-- Witness for the amended claim C1 at `c = 0`, `x0 = 1`,
`lam = lambda_init = 1e-6`. -/
theorem newton_linear_contraction_witness :
    ∃ s', newtonStep cfgC1 (fun x => x - 0)
        ⟨1, 1 - 0, |1 - 0|, 1 / 10 ^ 6, 0, {}⟩ = .next s' ∧
      s'.x - 0 = (1 - 0) * ((1 / 10 ^ 6) / (1 + 1 / 10 ^ 6)) ∧
      s'.residualNorm = |1 - 0| * ((1 / 10 ^ 6) / (1 + 1 / 10 ^ 6)) ∧
      s'.trace.iterations.length = (SolverTrace.iterations {}).length + 1 :=
  newton_linear_contraction 0 1 (1 / 10 ^ 6) {} 0 (by norm_num)
    (by norm_num [cfgC1])

/-- In every case of `armijoLoop` the reported merit is the merit of the
reported step: `merit = ½ F(x + alpha*d)^2`. -/
theorem armijoLoop_merit (F : ℚ → ℚ) (x d phi0 dphi0 c rho : ℚ) :
    ∀ (fuel : ℕ) (alpha : ℚ) (evals : ℕ),
      (armijoLoop F x d phi0 dphi0 c rho fuel alpha evals).merit =
        (F (x + (armijoLoop F x d phi0 dphi0 c rho fuel alpha evals).alpha * d)) ^ 2 / 2
  | 0, alpha, evals => rfl
  | (i + 1), alpha, evals => by
      simp only [armijoLoop]
      by_cases h : (F (x + alpha * d)) ^ 2 / 2 ≤ phi0 + c * alpha * dphi0
      · rw [if_pos h]
      · rw [if_neg h]
        exact armijoLoop_merit F x d phi0 dphi0 c rho i (alpha * rho) (evals + 1)

/-- When `armijoLoop` reports success the accepted merit satisfies the
Armijo inequality, and the accepted step size is nonnegative (the step
sizes tried are `alpha * rho^k`). -/
theorem armijoLoop_success (F : ℚ → ℚ) (x d phi0 dphi0 c rho : ℚ)
    (hrho : 0 ≤ rho) :
    ∀ (fuel : ℕ) (alpha : ℚ) (evals : ℕ), 0 ≤ alpha →
      (armijoLoop F x d phi0 dphi0 c rho fuel alpha evals).success = true →
      (armijoLoop F x d phi0 dphi0 c rho fuel alpha evals).merit ≤
          phi0 + c * (armijoLoop F x d phi0 dphi0 c rho fuel alpha evals).alpha * dphi0 ∧
        0 ≤ (armijoLoop F x d phi0 dphi0 c rho fuel alpha evals).alpha
  | 0, alpha, evals => by
      intro _ h
      simp [armijoLoop] at h
  | (i + 1), alpha, evals => by
      intro ha hsucc
      simp only [armijoLoop] at hsucc ⊢
      by_cases h : (F (x + alpha * d)) ^ 2 / 2 ≤ phi0 + c * alpha * dphi0
      · rw [if_pos h] at hsucc ⊢
        exact ⟨h, ha⟩
      · rw [if_neg h] at hsucc ⊢
        exact armijoLoop_success F x d phi0 dphi0 c rho hrho i (alpha * rho) (evals + 1)
          (mul_nonneg ha hrho) hsucc

/-- Specification of `armijo_backtrack`: its merit always equals the merit
of the returned step, and on success the merit does not exceed the starting
merit `½ F(x)^2` (the Armijo decrease, using `c ≥ 0` and the fact that the
loop is only entered on a strict descent direction). -/
theorem armijoBacktrack_spec (F : ℚ → ℚ) (x d j c rho : ℚ)
    (hc : 0 ≤ c) (hrho : 0 ≤ rho) :
    (armijoBacktrack F x d j c rho 20).merit =
        (F (x + (armijoBacktrack F x d j c rho 20).alpha * d)) ^ 2 / 2 ∧
      ((armijoBacktrack F x d j c rho 20).success = true →
        (armijoBacktrack F x d j c rho 20).merit ≤ (F x) ^ 2 / 2) := by
  unfold armijoBacktrack
  by_cases h : 0 ≤ F x * (j * d)
  · rw [if_pos h]
    constructor
    · show (F x) ^ 2 / 2 = (F (x + 0 * d)) ^ 2 / 2
      rw [zero_mul, add_zero]
    · intro hs
      exact absurd hs (by simp)
  · rw [if_neg h]
    rw [not_le] at h
    refine ⟨armijoLoop_merit F x d _ _ c rho 20 1 1, fun hs => ?_⟩
    obtain ⟨hmerit, halpha⟩ :=
      armijoLoop_success F x d ((F x) ^ 2 / 2) (F x * (j * d)) c rho hrho 20 1 1
        (by norm_num) hs
    have : c * (armijoLoop F x d ((F x) ^ 2 / 2) (F x * (j * d)) c rho 20 1 1).alpha *
        (F x * (j * d)) ≤ 0 :=
      mul_nonpos_of_nonneg_of_nonpos (mul_nonneg hc halpha) h.le
    linarith

/-- Claim C2, counterexample: on the residual `residualC2` from `x0 = 0`
(two-iteration budget, default configuration otherwise) the recorded trace
has residual norms `[1, 2]`: the first iteration exhausts all 20 Armijo
backtracks and then moves by the final untested `alpha = rho^20` anyway,
and the residual norm increases. -/
theorem newton_trace_residual_increases :
    ((newtonSolve { maxIters := 2 } residualC2 0).trace.iterations.map
        (fun st => st.residualNorm)) = [1, 2] ∧
      ¬ List.Chain' (fun a b => b ≤ a)
        ((newtonSolve { maxIters := 2 } residualC2 0).trace.iterations.map
          (fun st => st.residualNorm)) := by
  have h : ((newtonSolve { maxIters := 2 } residualC2 0).trace.iterations.map
      (fun st => st.residualNorm)) = [1, 2] := by decide
  refine ⟨h, ?_⟩
  rw [h]
  norm_num [List.chain'_cons, List.chain'_singleton]

/-- Claim C2, amended: a `newtonStep` that continues appends exactly one
trace record carrying the pre-step residual norm, and whenever its line
search either satisfied the Armijo test or returned the zero step
(non-descent), the post-step residual norm does not exceed the pre-step
one.  (The counterexample shows the remaining case, an exhausted
backtracking budget, can increase the residual norm.) -/
theorem newton_step_monotone (cfg : NewtonConfig) (F : ℚ → ℚ)
    (s s' : LoopState)
    (hlsOn : cfg.useLineSearch = true)
    (hc : 0 ≤ cfg.armijoC) (hrho : 0 ≤ cfg.armijoRho)
    (hr : s.r = F s.x) (hrn : s.residualNorm = |s.r|)
    (hstep : newtonStep cfg F s = .next s')
    (hok : (lineSearchAt cfg F s).success = true ∨ (lineSearchAt cfg F s).alpha = 0) :
    s'.residualNorm ≤ s.residualNorm ∧
      ∃ st, s'.trace.iterations = s.trace.iterations ++ [st] ∧
        st.residualNorm = s.residualNorm := by
  by_cases hconv : s.residualNorm < cfg.tol
  · rw [newtonStep, if_pos hconv] at hstep
    exact absurd hstep (by simp)
  · rcases hreg : regSolveAt cfg F s with ⟨o, lam'⟩
    cases o with
    | none =>
        rw [newtonStep, if_neg hconv] at hstep
        rw [hreg] at hstep
        exact absurd hstep (by simp)
    | some d =>
        rw [newtonStep, if_neg hconv] at hstep
        rw [hreg] at hstep
        simp only [hlsOn, if_true] at hstep
        rw [StepResult.next.injEq] at hstep
        subst hstep
        constructor
        · rcases hok with hsucc | halpha
          · have hlseq : lineSearchAt cfg F s =
                armijoBacktrack F s.x d (jacobianAt cfg F s)
                  cfg.armijoC cfg.armijoRho 20 := by
              rw [lineSearchAt, hreg]
            obtain ⟨hmer, hdec⟩ :=
              armijoBacktrack_spec F s.x d (jacobianAt cfg F s)
                cfg.armijoC cfg.armijoRho hc hrho
            rw [← hlseq] at hmer hdec
            have hle := hdec hsucc
            rw [hmer] at hle
            show |F (s.x + (lineSearchAt cfg F s).alpha * d)| ≤ s.residualNorm
            rw [hrn, hr]
            nlinarith [abs_nonneg (F (s.x + (lineSearchAt cfg F s).alpha * d)),
              abs_nonneg (F s.x),
              sq_abs (F (s.x + (lineSearchAt cfg F s).alpha * d)),
              sq_abs (F s.x)]
          · show |F (s.x + (lineSearchAt cfg F s).alpha * d)| ≤ s.residualNorm
            rw [halpha, zero_mul, add_zero, hrn, hr]
        · exact ⟨_, by simp only [SolverTrace.addIteration]; rfl, rfl⟩

/-- Witness for the amended claim C2 at a concrete step: the constant
residual `residualOne` from `stateC2` produces a zero Jacobian, a zero
step, a non-descent line search (`alpha = 0`), and an unchanged residual
norm. -/
theorem newton_step_monotone_witness :
    stateC2'.residualNorm ≤ stateC2.residualNorm ∧
      ∃ st, stateC2'.trace.iterations = stateC2.trace.iterations ++ [st] ∧
        st.residualNorm = stateC2.residualNorm :=
  newton_step_monotone {} residualOne stateC2 stateC2' rfl (by decide) (by decide)
    (by decide) (by decide) (by decide) (Or.inr (by decide))

/-- Invariants of the geometric loop of `make_beta_schedule`, for any fuel
and any positive starting value: appending the target keeps the list
strictly increasing, consecutive loop elements exactly double, and the loop
output is empty or starts at its starting value. -/
theorem betaGeomLoop_props (t : ℚ) :
    ∀ (f : ℕ) (b : ℚ), 0 < b →
      List.Chain' (· < ·) (betaGeomLoop t f b ++ [t]) ∧
      List.Chain' (fun x y => 2 * x ≤ y) (betaGeomLoop t f b) ∧
      ((betaGeomLoop t f b).head? = some b ∨ betaGeomLoop t f b = [])
  | 0, b, hb => by simp [betaGeomLoop]
  | (f + 1), b, hb => by
      by_cases hlt : b < t
      · obtain ⟨ih1, ih2, ih3⟩ := betaGeomLoop_props t f (2 * b) (by linarith)
        simp only [betaGeomLoop, if_pos hlt]
        refine ⟨?_, ?_, Or.inl rfl⟩
        · rw [List.cons_append, List.chain'_cons']
          refine ⟨?_, ih1⟩
          intro y hy
          rcases ih3 with hhead | hnil
          · have hnenil : betaGeomLoop t f (2 * b) ≠ [] := by
              intro hcon
              rw [hcon] at hhead
              simp at hhead
            rw [Option.mem_def, List.head?_append_of_ne_nil _ hnenil, hhead] at hy
            simp only [Option.some.injEq] at hy
            subst hy
            linarith
          · rw [hnil] at hy
            simp only [List.nil_append, List.head?_cons, Option.mem_def,
              Option.some.injEq] at hy
            subst hy
            exact hlt
        · rw [List.chain'_cons']
          refine ⟨?_, ih2⟩
          intro y hy
          rcases ih3 with hhead | hnil
          · rw [Option.mem_def, hhead] at hy
            simp only [Option.some.injEq] at hy
            subst hy
            linarith
          · rw [hnil] at hy
            simp at hy
      · simp [betaGeomLoop, if_neg hlt]

/-- Once the fuel majorises the number of doublings still needed
(`t ≤ b * 2 ^ f`), adding fuel does not change the loop output: the loop
exits on its own condition, as the unbounded C++ `while` loop does. -/
theorem betaGeomLoop_fuel_irrelevant :
    ∀ (f : ℕ) (b t : ℚ), 0 < b → t ≤ b * 2 ^ f →
      betaGeomLoop t f b = betaGeomLoop t (f + 1) b
  | 0, b, t, hb, hft => by
      have hbt : ¬ (b < t) := by
        rw [pow_zero, mul_one] at hft
        exact not_lt.mpr hft
      simp [betaGeomLoop, hbt]
  | (f + 1), b, t, hb, hft => by
      by_cases hbt : b < t
      · show (if b < t then b :: betaGeomLoop t f (2 * b) else []) =
          (if b < t then b :: betaGeomLoop t (f + 1) (2 * b) else [])
        rw [if_pos hbt, if_pos hbt,
          betaGeomLoop_fuel_irrelevant f (2 * b) t (by linarith)
            (by rw [show 2 * b * 2 ^ f = b * 2 ^ (f + 1) by ring]; exact hft)]
      · show (if b < t then b :: betaGeomLoop t f (2 * b) else []) =
          (if b < t then b :: betaGeomLoop t (f + 1) (2 * b) else [])
        rw [if_neg hbt, if_neg hbt]

/-- The fuel supplied by `betaScheduleFuel` is enough for the loop of
`make_beta_schedule` to exit on its own condition: from `0.05` at most
`⌈20 t⌉` doublings are needed before reaching `t`. -/
theorem betaScheduleFuel_sufficient (t : ℚ) :
    t ≤ (1 / 20) * 2 ^ (betaScheduleFuel t - 1) := by
  rw [betaScheduleFuel, Nat.add_sub_cancel]
  rcases le_or_lt (20 * t) 0 with hneg | hpos
  · calc t ≤ 0 := by linarith
      _ ≤ (1 / 20) * 2 ^ (⌈20 * t⌉.toNat) := by positivity
  · have h1 : (20 : ℚ) * t ≤ (⌈20 * t⌉ : ℚ) := Int.le_ceil _
    have h0 : (0 : ℤ) ≤ ⌈20 * t⌉ := by
      rw [Int.le_ceil_iff]
      push_cast
      linarith
    have h2 : ((⌈20 * t⌉.toNat : ℤ) : ℚ) = ((⌈20 * t⌉ : ℤ) : ℚ) := by
      rw [Int.toNat_of_nonneg h0]
    have h3 : (⌈20 * t⌉.toNat : ℚ) < 2 ^ (⌈20 * t⌉.toNat) := by
      have := Nat.lt_two_pow ⌈20 * t⌉.toNat
      exact_mod_cast this
    have h4 : (20 : ℚ) * t < 2 ^ (⌈20 * t⌉.toNat) := by
      calc (20 : ℚ) * t ≤ ((⌈20 * t⌉ : ℤ) : ℚ) := h1
        _ = (⌈20 * t⌉.toNat : ℚ) := by exact_mod_cast h2.symm
        _ < 2 ^ (⌈20 * t⌉.toNat) := h3
    linarith

/-- Claim C3, counterexample: for the target `beta* = 10` the schedule is
`[0.01, 0.05, 0.1, 0.2, 0.4, 0.8, 1.6, 3.2, 6.4, 10]`, and its final step
`6.4 -> 10` is smaller than a doubling. -/
theorem betaSchedule_ten_final_step_not_double :
    makeBetaSchedule 10 =
      [1/100, 1/20, 1/10, 1/5, 2/5, 4/5, 8/5, 16/5, 32/5, 10] ∧
      ¬ (2 * (32/5 : ℚ) ≤ 10) := by
  constructor
  · decide
  · norm_num

/-- Claim C3, amended: for every target greater than the starting value
`0.01`, the schedule begins at `0.01`, ends exactly at the target, is
strictly increasing, and every step except (possibly) the final step to the
target at least doubles; the final step may be smaller than a doubling (see
the counterexample at target 10). -/
theorem betaSchedule_props (t : ℚ) (ht : 1 / 100 < t) :
    (makeBetaSchedule t).head? = some (1 / 100) ∧
      (makeBetaSchedule t).getLast? = some t ∧
      List.Chain' (· < ·) (makeBetaSchedule t) ∧
      List.Chain' (fun a b => 2 * a ≤ b) (makeBetaSchedule t).dropLast := by
  obtain ⟨h1, h2, h3⟩ :=
    betaGeomLoop_props t (betaScheduleFuel t) (1 / 20) (by norm_num)
  unfold makeBetaSchedule
  refine ⟨rfl, ?_, ?_, ?_⟩
  · rw [show (1/100 : ℚ) :: (betaGeomLoop t (betaScheduleFuel t) (1/20) ++ [t])
        = ((1/100 : ℚ) :: betaGeomLoop t (betaScheduleFuel t) (1/20)) ++ [t] by
        simp]
    rw [List.getLast?_concat]
  · rw [List.chain'_cons']
    refine ⟨?_, h1⟩
    intro y hy
    rcases h3 with hhead | hnil
    · have hnenil : betaGeomLoop t (betaScheduleFuel t) (1 / 20) ≠ [] := by
        intro hcon
        rw [hcon] at hhead
        simp at hhead
      rw [Option.mem_def, List.head?_append_of_ne_nil _ hnenil, hhead] at hy
      simp only [Option.some.injEq] at hy
      subst hy
      norm_num
    · rw [hnil] at hy
      simp only [List.nil_append, List.head?_cons, Option.mem_def,
        Option.some.injEq] at hy
      subst hy
      exact ht
  · rw [show (1/100 : ℚ) :: (betaGeomLoop t (betaScheduleFuel t) (1/20) ++ [t])
        = ((1/100 : ℚ) :: betaGeomLoop t (betaScheduleFuel t) (1/20)) ++ [t] by
        simp]
    rw [List.dropLast_concat]
    rw [List.chain'_cons']
    refine ⟨?_, h2⟩
    intro y hy
    rcases h3 with hhead | hnil
    · rw [Option.mem_def, hhead] at hy
      simp only [Option.some.injEq] at hy
      subst hy
      norm_num
    · rw [hnil] at hy
      simp at hy

/-- Witness for the amended claim C3 at target `10`. -/
theorem betaSchedule_props_witness :
    (makeBetaSchedule 10).head? = some (1 / 100) ∧
      (makeBetaSchedule 10).getLast? = some 10 ∧
      List.Chain' (· < ·) (makeBetaSchedule 10) ∧
      List.Chain' (fun a b => 2 * a ≤ b) (makeBetaSchedule 10).dropLast :=
  betaSchedule_props 10 (by norm_num)

end NewtonTheorems

section GameTreeTheorems

attribute [local semireducible] Rat.mul Rat.add Rat.sub Rat.inv Rat.ofScientific

/-- Claim C8: the constructed Kuhn tree has exactly these 12 information
sets; `get_info_sets` returns them with their legal-action lists, sorted
strictly increasingly by id (so in particular the 12 ids are distinct). -/
theorem kuhn_info_sets_exact :
    kuhnInfoSets =
      [("P0:J:", 0, [Action.Check, Action.Bet]),
       ("P0:J:cb", 0, [Action.Call, Action.Fold]),
       ("P0:K:", 0, [Action.Check, Action.Bet]),
       ("P0:K:cb", 0, [Action.Call, Action.Fold]),
       ("P0:Q:", 0, [Action.Check, Action.Bet]),
       ("P0:Q:cb", 0, [Action.Call, Action.Fold]),
       ("P1:J:b", 1, [Action.Call, Action.Fold]),
       ("P1:J:c", 1, [Action.Check, Action.Bet]),
       ("P1:K:b", 1, [Action.Call, Action.Fold]),
       ("P1:K:c", 1, [Action.Check, Action.Bet]),
       ("P1:Q:b", 1, [Action.Call, Action.Fold]),
       ("P1:Q:c", 1, [Action.Check, Action.Bet])] ∧
      kuhnInfoSets.length = 12 ∧
      List.Chain' (fun a b => stringLt a.1 b.1 = true) kuhnInfoSets := by
  have h : kuhnInfoSets =
      [("P0:J:", 0, [Action.Check, Action.Bet]),
       ("P0:J:cb", 0, [Action.Call, Action.Fold]),
       ("P0:K:", 0, [Action.Check, Action.Bet]),
       ("P0:K:cb", 0, [Action.Call, Action.Fold]),
       ("P0:Q:", 0, [Action.Check, Action.Bet]),
       ("P0:Q:cb", 0, [Action.Call, Action.Fold]),
       ("P1:J:b", 1, [Action.Call, Action.Fold]),
       ("P1:J:c", 1, [Action.Check, Action.Bet]),
       ("P1:K:b", 1, [Action.Call, Action.Fold]),
       ("P1:K:c", 1, [Action.Check, Action.Bet]),
       ("P1:Q:b", 1, [Action.Call, Action.Fold]),
       ("P1:Q:c", 1, [Action.Check, Action.Bet])] := by decide
  refine ⟨h, by rw [h]; rfl, ?_⟩
  rw [h]
  simp only [List.chain'_cons, List.chain'_singleton, and_true]
  refine ⟨?_, ?_, ?_, ?_, ?_, ?_, ?_, ?_, ?_, ?_, ?_⟩ <;> decide

/-- Claim C5: under every one of the 6 deals the terminal histories are
exactly `cc, cbk, cbf, bk, bf` (in construction order), every showdown
terminal (`cc`, `cbk`, `bk`) pays `pot/2` to player 0 when their card is
higher and `-pot/2` otherwise, and the fold terminals pay `-1` when player
0 folds (`cbf`) and `+1` when player 1 folds (`bf`), the same unit for both
fold lines. -/
theorem kuhn_terminals_exact :
    (kuhnRoot.children.toList.map fun e =>
        (collectTerminals e.2.2.2).map (fun t => t.history)) =
      List.replicate 6 ["cc", "cbk", "cbf", "bk", "bf"] ∧
      (∀ e ∈ kuhnRoot.children.toList, ∀ t ∈ collectTerminals e.2.2.2,
        ((t.history = "cc" ∨ t.history = "cbk" ∨ t.history = "bk") →
            t.payoff = (if t.p0Card > t.p1Card then (t.pot : ℚ) / 2
              else -((t.pot : ℚ) / 2))) ∧
          (t.history = "cbf" → t.payoff = -1) ∧
          (t.history = "bf" → t.payoff = 1)) := by
  decide

/-- Claim C4 (failing input): in the constructed Leduc tree, after the
deal `(Js, Jh)` and mutual checks in round 1 (where the first check does
lead to an opponent decision node, last conjunct), the public card `Qs`
leads to a round-2 player-0 node with history `"cc|"`, no outstanding bet
and no round-2 action taken — yet its `Check` edge leads directly to a
terminal (showdown) instead of a decision node for player 1: the guard
`history.empty()` of `build_betting_round` never holds in round 2, so the
first round-2 check is treated as the round-closing second check. -/
theorem leduc_round2_first_check_ends_round :
    (leducRound2Node.map (fun n => n.ty)) = some NodeType.Player ∧
      (leducRound2Node.map (fun n => n.player)) = some 0 ∧
      (leducRound2Node.map (fun n => n.legalActions)) =
        some [Action.Check, Action.Bet] ∧
      (leducRound2Node.map (fun n => n.history)) = some "cc|" ∧
      ((leducRound2Node.bind (fun n => n.getChild .Check)).map
        (fun n => n.ty)) = some NodeType.Terminal ∧
      (((leducRoot.getChanceChild 1).bind (fun n => n.getChild .Check)).map
        (fun n => n.ty)) = some NodeType.Player := by
  decide

end GameTreeTheorems

section StrategyTheorems

attribute [local semireducible] Rat.mul Rat.add Rat.sub Rat.inv Rat.ofScientific

/-- Dividing every element of a list by a constant divides the sum. -/
theorem sum_map_div (xs : List ℚ) (S : ℚ) :
    (xs.map (fun x => x / S)).sum = xs.sum / S := by
  induction xs with
  | nil => simp
  | cons x xs ih => simp [ih, add_div]

/-- Specification of `stable_softmax` for a nonempty logit vector and any
strictly positive exponential: the output has the same length, all entries
are strictly positive, and the entries sum to exactly `1`. -/
theorem stableSoftmax_spec (sexp : ℚ → ℚ) (hpos : ∀ x, 0 < sexp x)
    (l : List ℚ) (hne : l ≠ []) :
    (stableSoftmax sexp l).length = l.length ∧
      (∀ p ∈ stableSoftmax sexp l, 0 < p) ∧
      (stableSoftmax sexp l).sum = 1 := by
  have hexpne : l.map (fun x => sexp (x - listMax l)) ≠ [] := by
    simpa using hne
  have hS : 0 < (l.map (fun x => sexp (x - listMax l))).sum := by
    apply List.sum_pos
    · intro a ha
      obtain ⟨x, _, rfl⟩ := List.mem_map.mp ha
      exact hpos _
    · exact hexpne
  refine ⟨by simp [stableSoftmax], ?_, ?_⟩
  · intro p hp
    obtain ⟨e, he, rfl⟩ := List.mem_map.mp hp
    obtain ⟨x, _, rfl⟩ := List.mem_map.mp he
    exact div_pos (hpos _) hS
  · show ((l.map (fun x => sexp (x - listMax l))).map
        (fun e => e / (l.map (fun x => sexp (x - listMax l))).sum)).sum = 1
    rw [sum_map_div, div_self (ne_of_gt hS)]

/-- Lookup after insert-or-assign at the inserted key. -/
theorem assocFind_set_self {α : Type} (m : List (String × α)) (k : String)
    (v : α) : assocFind (assocSet m k v) k = some v := by
  induction m with
  | nil => simp [assocSet, assocFind]
  | cons hd rest ih =>
      obtain ⟨k', v'⟩ := hd
      by_cases h : k' = k
      · subst h
        simp [assocSet, assocFind]
      · simp only [assocSet, beq_iff_eq, if_neg h]
        simpa [assocFind, beq_iff_eq, h] using ih

/-- Lookup after insert-or-assign at a different key. -/
theorem assocFind_set_ne {α : Type} (m : List (String × α)) (k k' : String)
    (v : α) (h : k ≠ k') :
    assocFind (assocSet m k v) k' = assocFind m k' := by
  induction m with
  | nil => simp [assocSet, assocFind, beq_iff_eq, h]
  | cons hd rest ih =>
      obtain ⟨k0, v0⟩ := hd
      by_cases h0 : k0 = k
      · subst h0
        simp [assocSet, assocFind, beq_iff_eq, h]
      · simp only [assocSet, beq_iff_eq, if_neg h0]
        by_cases h1 : k0 = k'
        · subst h1
          simp [assocFind]
        · simp only [assocFind, beq_iff_eq, if_neg h1]
          exact ih

/-- Processing index entries whose ids all differ from `id` does not change
the binding of `id`. -/
theorem fromLogitsAux_preserve (w : ℕ → ℚ) (id : String) :
    ∀ (index : InfoSetIndex) (start : ℕ) (s : Strategy),
      (∀ is' ∈ index, is'.id ≠ id) →
      assocFind (fromLogitsAux w index start s).logits id =
        assocFind s.logits id
  | [], _, _, _ => rfl
  | is :: rest, start, s, h => by
      rw [fromLogitsAux]
      rw [fromLogitsAux_preserve w id rest _ _
        (fun is' h' => h is' (List.mem_cons_of_mem _ h'))]
      exact assocFind_set_ne _ _ _ _ (h is (List.mem_cons_self _ _))

/-- For every index entry (with distinct index ids), `from_logits` stores a
logit vector of exactly the entry's action count. -/
theorem fromLogitsAux_lookup (w : ℕ → ℚ) (is : InfoSet) :
    ∀ (index : InfoSetIndex) (start : ℕ) (s : Strategy),
      is ∈ index → (index.map InfoSet.id).Nodup →
      ∃ l, assocFind (fromLogitsAux w index start s).logits is.id = some l ∧
        l.length = is.legalActions.length
  | [], _, _, hmem, _ => absurd hmem (List.not_mem_nil _)
  | is' :: rest, start, s, hmem, hnodup => by
      rcases List.mem_cons.mp hmem with heq | hmem'
      · subst heq
        rw [fromLogitsAux]
        have hnotin : ∀ is'' ∈ rest, is''.id ≠ is.id := by
          intro is'' h'' hcon
          have := (List.nodup_cons.mp hnodup).1
          exact this (hcon ▸ List.mem_map_of_mem InfoSet.id h'')
        rw [fromLogitsAux_preserve w is.id rest _ _ hnotin]
        refine ⟨_, assocFind_set_self _ _ _, by simp⟩
      · rw [fromLogitsAux]
        exact fromLogitsAux_lookup w is rest _ _ hmem'
          (List.nodup_cons.mp hnodup).2

/-- Claim C6: for every flat logit vector `w` and every entry of the index
(ids distinct, as produced by `get_info_sets`; action list nonempty, as in
every constructed game), the strategy built by `from_logits` answers
`probs` for that id with a vector of exactly the entry's legal-action
count whose entries are strictly positive and sum to `1` within `1e-9`
(here: exactly `1`), for any strictly positive exponential. -/
theorem strategy_probs_valid (w : ℕ → ℚ) (index : InfoSetIndex)
    (sexp : ℚ → ℚ) (hpos : ∀ x, 0 < sexp x) (is : InfoSet)
    (hmem : is ∈ index) (hnodup : (index.map InfoSet.id).Nodup)
    (hne : is.legalActions ≠ []) :
    ∃ p, (Strategy.fromLogits w index).probs sexp is.id = .ok p ∧
      p.length = is.legalActions.length ∧
      (∀ q ∈ p, 0 < q) ∧
      |p.sum - 1| ≤ 1 / 10 ^ 9 := by
  obtain ⟨l, hfind, hlen⟩ :=
    fromLogitsAux_lookup w is index 0 ⟨[], []⟩ hmem hnodup
  have hlne : l ≠ [] := by
    intro hcon
    rw [hcon] at hlen
    exact hne (List.eq_nil_of_length_eq_zero hlen.symm)
  obtain ⟨hslen, hspos, hssum⟩ := stableSoftmax_spec sexp hpos l hlne
  refine ⟨stableSoftmax sexp l, ?_, ?_, hspos, ?_⟩
  · rw [Strategy.probs, Strategy.fromLogits] at *
    rw [hfind]
  · rw [hslen, hlen]
  · rw [hssum]
    norm_num

/-- Witness for claim C6: a one-entry index with two actions, zero logits
and the constant-1 exponential. -/
theorem strategy_probs_valid_witness :
    ∃ p, (Strategy.fromLogits (fun _ => 0)
        [⟨"P0:J:", 0, [Action.Check, Action.Bet]⟩]).probs (fun _ => 1)
          "P0:J:" = .ok p ∧
      p.length = (InfoSet.legalActions ⟨"P0:J:", 0, [Action.Check, Action.Bet]⟩).length ∧
      (∀ q ∈ p, 0 < q) ∧
      |p.sum - 1| ≤ 1 / 10 ^ 9 :=
  strategy_probs_valid (fun _ => 0) [⟨"P0:J:", 0, [Action.Check, Action.Bet]⟩]
    (fun _ => 1) (fun _ => one_pos) ⟨"P0:J:", 0, [Action.Check, Action.Bet]⟩
    (by simp) (by simp) (by simp)

/-- Claim C9: querying a `Strategy` for an id that is in neither of its
maps fails with the UnknownInfoSet error through all three accessors
(`probs`, `prob`, `logits`); the accessors are `const`, so the strategy
value is unchanged by the queries (they are pure functions here). -/
theorem strategy_unknown_info_set (s : Strategy) (sexp : ℚ → ℚ)
    (id : String) (a : Action)
    (h1 : assocFind s.logits id = none)
    (h2 : assocFind s.actions id = none) :
    s.probs sexp id = .error ("Unknown information set: " ++ id) ∧
      s.prob sexp id a = .error ("Unknown information set: " ++ id) ∧
      s.logitsOf id = .error ("Unknown information set: " ++ id) := by
  refine ⟨?_, ?_, ?_⟩
  · rw [Strategy.probs, h1]
  · rw [Strategy.prob, h1, h2]
  · rw [Strategy.logitsOf, h1]

/-- Witness for claim C9: a strategy holding one info set, queried at a
different id. -/
theorem strategy_unknown_info_set_witness :
    Strategy.probs ⟨[("P0:J:", [0, 0])], [("P0:J:", [Action.Check, Action.Bet])]⟩
        (fun _ => 1) "P0:Q:" =
      .error ("Unknown information set: " ++ "P0:Q:") ∧
      Strategy.prob ⟨[("P0:J:", [0, 0])], [("P0:J:", [Action.Check, Action.Bet])]⟩
        (fun _ => 1) "P0:Q:" Action.Check =
        .error ("Unknown information set: " ++ "P0:Q:") ∧
      Strategy.logitsOf
        ⟨[("P0:J:", [0, 0])], [("P0:J:", [Action.Check, Action.Bet])]⟩
        "P0:Q:" = .error ("Unknown information set: " ++ "P0:Q:") :=
  strategy_unknown_info_set
    ⟨[("P0:J:", [0, 0])], [("P0:J:", [Action.Check, Action.Bet])]⟩
    (fun _ => 1) "P0:Q:" Action.Check (by decide) (by decide)

end StrategyTheorems

section TraversalTheorems

attribute [local semireducible] Rat.mul Rat.add Rat.sub Rat.inv Rat.ofScientific

mutual
/-- Linearity of `ev_recursive` in the player-0 reach. -/
theorem evRec_mul_r0 (σ : String → List ℚ) (ov : Option (String × Action))
    (a : ℚ) :
    ∀ (n : GameNode) (r0 r1 rc : ℚ),
      evRec σ ov n (a * r0) r1 rc = a * evRec σ ov n r0 r1 rc
  | .mk ty pl isId acts cs payoff pot hist p0 p1 pub, r0, r1, rc => by
      cases ty with
      | Terminal => simp only [evRec]; ring
      | Chance => simp only [evRec]; exact evChance_mul_r0 σ ov a cs r0 r1 rc
      | Player => simp only [evRec]; exact evPlayer_mul_r0 σ ov a pl _ cs r0 r1 rc

/-- Linearity of the chance accumulation in the player-0 reach. -/
theorem evChance_mul_r0 (σ : String → List ℚ) (ov : Option (String × Action))
    (a : ℚ) :
    ∀ (es : EdgeList) (r0 r1 rc : ℚ),
      evChance σ ov es (a * r0) r1 rc = a * evChance σ ov es r0 r1 rc
  | .nil, r0, r1, rc => by simp [evChance]
  | .cons ac c prob child rest, r0, r1, rc => by
      simp only [evChance]
      rw [evRec_mul_r0 σ ov a child, evChance_mul_r0 σ ov a rest]
      ring

/-- Linearity of the player accumulation in the player-0 reach. -/
theorem evPlayer_mul_r0 (σ : String → List ℚ) (ov : Option (String × Action))
    (a : ℚ) (pl : ℤ) :
    ∀ (ps : List ℚ) (es : EdgeList) (r0 r1 rc : ℚ),
      evPlayer σ ov pl ps es (a * r0) r1 rc =
        a * evPlayer σ ov pl ps es r0 r1 rc
  | [], es, r0, r1, rc => by cases es <;> simp [evPlayer]
  | p :: ps, .nil, r0, r1, rc => by simp [evPlayer]
  | p :: ps, .cons ac c prob child rest, r0, r1, rc => by
      simp only [evPlayer]
      by_cases hpl : pl = 0
      · rw [if_pos hpl, if_pos hpl]
        have h1 : a * r0 * p = a * (r0 * p) := by ring
        rw [h1, evRec_mul_r0 σ ov a child,
          evPlayer_mul_r0 σ ov a pl ps rest]
        ring
      · rw [if_neg hpl, if_neg hpl, evRec_mul_r0 σ ov a child,
          evPlayer_mul_r0 σ ov a pl ps rest]
        ring
end

mutual
/-- Linearity of `ev_recursive` in the player-1 reach. -/
theorem evRec_mul_r1 (σ : String → List ℚ) (ov : Option (String × Action))
    (a : ℚ) :
    ∀ (n : GameNode) (r0 r1 rc : ℚ),
      evRec σ ov n r0 (a * r1) rc = a * evRec σ ov n r0 r1 rc
  | .mk ty pl isId acts cs payoff pot hist p0 p1 pub, r0, r1, rc => by
      cases ty with
      | Terminal => simp only [evRec]; ring
      | Chance => simp only [evRec]; exact evChance_mul_r1 σ ov a cs r0 r1 rc
      | Player => simp only [evRec]; exact evPlayer_mul_r1 σ ov a pl _ cs r0 r1 rc

/-- Linearity of the chance accumulation in the player-1 reach. -/
theorem evChance_mul_r1 (σ : String → List ℚ) (ov : Option (String × Action))
    (a : ℚ) :
    ∀ (es : EdgeList) (r0 r1 rc : ℚ),
      evChance σ ov es r0 (a * r1) rc = a * evChance σ ov es r0 r1 rc
  | .nil, r0, r1, rc => by simp [evChance]
  | .cons ac c prob child rest, r0, r1, rc => by
      simp only [evChance]
      rw [evRec_mul_r1 σ ov a child, evChance_mul_r1 σ ov a rest]
      ring

/-- Linearity of the player accumulation in the player-1 reach. -/
theorem evPlayer_mul_r1 (σ : String → List ℚ) (ov : Option (String × Action))
    (a : ℚ) (pl : ℤ) :
    ∀ (ps : List ℚ) (es : EdgeList) (r0 r1 rc : ℚ),
      evPlayer σ ov pl ps es r0 (a * r1) rc =
        a * evPlayer σ ov pl ps es r0 r1 rc
  | [], es, r0, r1, rc => by cases es <;> simp [evPlayer]
  | p :: ps, .nil, r0, r1, rc => by simp [evPlayer]
  | p :: ps, .cons ac c prob child rest, r0, r1, rc => by
      simp only [evPlayer]
      by_cases hpl : pl = 0
      · rw [if_pos hpl, if_pos hpl, evRec_mul_r1 σ ov a child,
          evPlayer_mul_r1 σ ov a pl ps rest]
        ring
      · rw [if_neg hpl, if_neg hpl]
        have h1 : a * r1 * p = a * (r1 * p) := by ring
        rw [h1, evRec_mul_r1 σ ov a child,
          evPlayer_mul_r1 σ ov a pl ps rest]
        ring
end

/-- An element of a list is bounded by `listMax` (the fold the BR player's
node performs over its child values). -/
theorem le_listMax : ∀ (l : List ℚ), ∀ b ∈ l, b ≤ listMax l := by
  have aux1 : ∀ (xs : List ℚ) (a : ℚ), a ≤ xs.foldl max a := by
    intro xs
    induction xs with
    | nil => intro a; exact le_refl a
    | cons x xs ih =>
        intro a
        calc a ≤ max a x := le_max_left a x
          _ ≤ (x :: xs).foldl max a := by simp only [List.foldl_cons]; exact ih _
  have aux2 : ∀ (xs : List ℚ) (a : ℚ), ∀ b ∈ xs, b ≤ xs.foldl max a := by
    intro xs
    induction xs with
    | nil => intro a b hb; exact absurd hb (List.not_mem_nil b)
    | cons x xs ih =>
        intro a b hb
        rcases List.mem_cons.mp hb with rfl | hb'
        · calc b ≤ max a b := le_max_right a b
            _ ≤ (b :: xs).foldl max a := by
                simp only [List.foldl_cons]; exact aux1 xs _
        · simp only [List.foldl_cons]
          exact ih _ b hb'
  intro l b hb
  cases l with
  | nil => exact absurd hb (List.not_mem_nil b)
  | cons x xs =>
      rcases List.mem_cons.mp hb with rfl | hb'
      · exact aux1 xs b
      · exact aux2 xs x b hb'

mutual
/-- Against a well-formed strategy, the best-responding player 0 secures at
least the expected value of the strategy profile, for any nonnegative
opponent and chance reach. -/
theorem br_ge_ev_p0 (σ : String → List ℚ) :
    ∀ (n : GameNode) (ro rc : ℚ), 0 ≤ ro → 0 ≤ rc → wfStrat σ n = true →
      evRec σ none n 1 ro rc ≤ brRec σ 0 n ro rc
  | .mk ty pl isId acts cs payoff pot hist p0c p1c pub, ro, rc, hro, hrc,
      hwf => by
      cases ty with
      | Terminal =>
          simp only [evRec, brRec]
          rw [if_neg (by norm_num : ¬ ((0:ℤ) = 1))]
          apply le_of_eq
          ring
      | Chance =>
          simp only [wfStrat] at hwf
          simp only [evRec, brRec]
          exact brChance_ge_p0 σ cs ro rc hro hrc hwf
      | Player =>
          simp only [wfStrat, Bool.and_eq_true, Bool.or_eq_true,
            decide_eq_true_eq, List.all_eq_true] at hwf
          obtain ⟨⟨⟨⟨⟨hlen, hpos⟩, hsum⟩, hpl⟩, hnem⟩, hedges⟩ := hwf
          simp only [evRec, brRec]
          by_cases hpl0 : pl = 0
          · subst hpl0
            rw [if_pos rfl]
            have hM := le_listMax (brVals σ 0 cs ro rc)
            calc evPlayer σ none 0 (σ isId) cs 1 ro rc ≤
                (σ isId).sum * listMax (brVals σ 0 cs ro rc) :=
                  brOwn_aux_p0 σ (listMax (brVals σ 0 cs ro rc)) (σ isId)
                    cs ro rc (by rw [hlen]) hpos hro hrc hM hedges
              _ = listMax (brVals σ 0 cs ro rc) := by rw [hsum, one_mul]
          · have hpl1 : pl = 1 := hpl.resolve_left hpl0
            subst hpl1
            rw [if_neg (by norm_num : ¬ ((1:ℤ) = 0))]
            exact brOpp_aux_p0 σ (σ isId) cs ro rc (by rw [hlen]) hpos
              hro hrc hedges

/-- Chance-edge case of `br_ge_ev_p0`. -/
theorem brChance_ge_p0 (σ : String → List ℚ) :
    ∀ (es : EdgeList) (ro rc : ℚ), 0 ≤ ro → 0 ≤ rc →
      wfChanceEdges σ es = true →
      evChance σ none es 1 ro rc ≤ brChance σ 0 es ro rc
  | .nil, ro, rc, _, _, _ => by simp [evChance, brChance]
  | .cons a c prob child rest, ro, rc, hro, hrc, hwf => by
      simp only [wfChanceEdges, Bool.and_eq_true, decide_eq_true_eq] at hwf
      obtain ⟨⟨hprob, hchild⟩, hrest⟩ := hwf
      simp only [evChance, brChance]
      have h1 := br_ge_ev_p0 σ child ro (rc * prob) hro
        (mul_nonneg hrc hprob) hchild
      have h2 := brChance_ge_p0 σ rest ro rc hro hrc hrest
      linarith

/-- BR-player node case of `br_ge_ev_p0`: the strategy-weighted sum of the
child expectations is bounded by the weight sum times any bound `M` on the
best-response child values. -/
theorem brOwn_aux_p0 (σ : String → List ℚ) (M : ℚ) :
    ∀ (ps : List ℚ) (es : EdgeList) (ro rc : ℚ),
      ps.length = es.length → (∀ p ∈ ps, 0 ≤ p) → 0 ≤ ro → 0 ≤ rc →
      (∀ v ∈ brVals σ 0 es ro rc, v ≤ M) → wfEdges σ es = true →
      evPlayer σ none 0 ps es 1 ro rc ≤ ps.sum * M
  | [], .nil, ro, rc, _, _, _, _, _, _ => by simp [evPlayer]
  | [], .cons a c prob child rest, ro, rc, hlen, _, _, _, _, _ => by
      simp [EdgeList.length] at hlen
  | p :: ps, .nil, ro, rc, hlen, _, _, _, _, _ => by
      simp [EdgeList.length] at hlen
  | p :: ps, .cons a c prob child rest, ro, rc, hlen, hps, hro, hrc, hM,
      hwf => by
      simp only [wfEdges, Bool.and_eq_true] at hwf
      obtain ⟨hchild, hrest⟩ := hwf
      simp only [evPlayer, if_pos rfl]
      have hp : (0:ℚ) ≤ p := hps p (List.mem_cons_self _ _)
      have hlin : evRec σ none child (1 * p) ro rc =
          p * evRec σ none child 1 ro rc := by
        rw [show (1:ℚ) * p = p * 1 by ring, evRec_mul_r0]
      have hchildle := br_ge_ev_p0 σ child ro rc hro hrc hchild
      have hvmem : brRec σ 0 child ro rc ≤ M := by
        apply hM
        simp [brVals]
      have hterm : evRec σ none child (1 * p) ro rc ≤ p * M := by
        rw [hlin]
        calc p * evRec σ none child 1 ro rc ≤ p * brRec σ 0 child ro rc :=
              mul_le_mul_of_nonneg_left hchildle hp
          _ ≤ p * M := mul_le_mul_of_nonneg_left hvmem hp
      have htail := brOwn_aux_p0 σ M ps rest ro rc
        (by simpa [EdgeList.length] using hlen)
        (fun q hq => hps q (List.mem_cons_of_mem _ hq)) hro hrc
        (fun v hv => hM v (by simp [brVals, hv])) hrest
      calc evRec σ none child (1 * p) ro rc +
            evPlayer σ none 0 ps rest 1 ro rc ≤ p * M + ps.sum * M := by
            linarith
        _ = (p :: ps).sum * M := by rw [List.sum_cons]; ring

/-- Opponent node case of `br_ge_ev_p0`: termwise comparison with the
opponent reach absorbing the strategy weight. -/
theorem brOpp_aux_p0 (σ : String → List ℚ) :
    ∀ (ps : List ℚ) (es : EdgeList) (ro rc : ℚ),
      ps.length = es.length → (∀ p ∈ ps, 0 ≤ p) → 0 ≤ ro → 0 ≤ rc →
      wfEdges σ es = true →
      evPlayer σ none 1 ps es 1 ro rc ≤ brOpp σ 0 ps es ro rc
  | [], .nil, ro, rc, _, _, _, _, _ => by simp [evPlayer, brOpp]
  | [], .cons a c prob child rest, ro, rc, hlen, _, _, _, _ => by
      simp [EdgeList.length] at hlen
  | p :: ps, .nil, ro, rc, hlen, _, _, _, _ => by
      simp [EdgeList.length] at hlen
  | p :: ps, .cons a c prob child rest, ro, rc, hlen, hps, hro, hrc,
      hwf => by
      simp only [wfEdges, Bool.and_eq_true] at hwf
      obtain ⟨hchild, hrest⟩ := hwf
      simp only [evPlayer, brOpp]
      rw [if_neg (by norm_num : ¬ ((1:ℤ) = 0))]
      have hp : (0:ℚ) ≤ p := hps p (List.mem_cons_self _ _)
      have h1 := br_ge_ev_p0 σ child (ro * p) rc (mul_nonneg hro hp) hrc
        hchild
      have h2 := brOpp_aux_p0 σ ps rest ro rc
        (by simpa [EdgeList.length] using hlen)
        (fun q hq => hps q (List.mem_cons_of_mem _ hq)) hro hrc hrest
      linarith
end

mutual
/-- Against a well-formed strategy, the best-responding player 1 secures at
least the negated player-0 expected value (the zero-sum payoff of
player 1), for any nonnegative opponent and chance reach. -/
theorem br_ge_ev_p1 (σ : String → List ℚ) :
    ∀ (n : GameNode) (ro rc : ℚ), 0 ≤ ro → 0 ≤ rc → wfStrat σ n = true →
      -(evRec σ none n ro 1 rc) ≤ brRec σ 1 n ro rc
  | .mk ty pl isId acts cs payoff pot hist p0c p1c pub, ro, rc, hro, hrc,
      hwf => by
      cases ty with
      | Terminal =>
          simp only [evRec, brRec, if_true]
          apply le_of_eq
          ring
      | Chance =>
          simp only [wfStrat] at hwf
          simp only [evRec, brRec]
          exact brChance_ge_p1 σ cs ro rc hro hrc hwf
      | Player =>
          simp only [wfStrat, Bool.and_eq_true, Bool.or_eq_true,
            decide_eq_true_eq, List.all_eq_true] at hwf
          obtain ⟨⟨⟨⟨⟨hlen, hpos⟩, hsum⟩, hpl⟩, hnem⟩, hedges⟩ := hwf
          simp only [evRec, brRec]
          by_cases hpl0 : pl = 0
          · subst hpl0
            rw [if_neg (by norm_num : ¬ ((0:ℤ) = 1))]
            exact brOpp_aux_p1 σ (σ isId) cs ro rc (by rw [hlen]) hpos
              hro hrc hedges
          · have hpl1 : pl = 1 := hpl.resolve_left hpl0
            subst hpl1
            rw [if_pos rfl]
            have hM := le_listMax (brVals σ 1 cs ro rc)
            calc -(evPlayer σ none 1 (σ isId) cs ro 1 rc) ≤
                (σ isId).sum * listMax (brVals σ 1 cs ro rc) :=
                  brOwn_aux_p1 σ (listMax (brVals σ 1 cs ro rc)) (σ isId)
                    cs ro rc (by rw [hlen]) hpos hro hrc hM hedges
              _ = listMax (brVals σ 1 cs ro rc) := by rw [hsum, one_mul]

/-- Chance-edge case of `br_ge_ev_p1`. -/
theorem brChance_ge_p1 (σ : String → List ℚ) :
    ∀ (es : EdgeList) (ro rc : ℚ), 0 ≤ ro → 0 ≤ rc →
      wfChanceEdges σ es = true →
      -(evChance σ none es ro 1 rc) ≤ brChance σ 1 es ro rc
  | .nil, ro, rc, _, _, _ => by simp [evChance, brChance]
  | .cons a c prob child rest, ro, rc, hro, hrc, hwf => by
      simp only [wfChanceEdges, Bool.and_eq_true, decide_eq_true_eq] at hwf
      obtain ⟨⟨hprob, hchild⟩, hrest⟩ := hwf
      simp only [evChance, brChance]
      have h1 := br_ge_ev_p1 σ child ro (rc * prob) hro
        (mul_nonneg hrc hprob) hchild
      have h2 := brChance_ge_p1 σ rest ro rc hro hrc hrest
      linarith

/-- BR-player node case of `br_ge_ev_p1`. -/
theorem brOwn_aux_p1 (σ : String → List ℚ) (M : ℚ) :
    ∀ (ps : List ℚ) (es : EdgeList) (ro rc : ℚ),
      ps.length = es.length → (∀ p ∈ ps, 0 ≤ p) → 0 ≤ ro → 0 ≤ rc →
      (∀ v ∈ brVals σ 1 es ro rc, v ≤ M) → wfEdges σ es = true →
      -(evPlayer σ none 1 ps es ro 1 rc) ≤ ps.sum * M
  | [], .nil, ro, rc, _, _, _, _, _, _ => by simp [evPlayer]
  | [], .cons a c prob child rest, ro, rc, hlen, _, _, _, _, _ => by
      simp [EdgeList.length] at hlen
  | p :: ps, .nil, ro, rc, hlen, _, _, _, _, _ => by
      simp [EdgeList.length] at hlen
  | p :: ps, .cons a c prob child rest, ro, rc, hlen, hps, hro, hrc, hM,
      hwf => by
      simp only [wfEdges, Bool.and_eq_true] at hwf
      obtain ⟨hchild, hrest⟩ := hwf
      simp only [evPlayer]
      rw [if_neg (by norm_num : ¬ ((1:ℤ) = 0))]
      have hp : (0:ℚ) ≤ p := hps p (List.mem_cons_self _ _)
      have hlin : evRec σ none child ro (1 * p) rc =
          p * evRec σ none child ro 1 rc := by
        rw [show (1:ℚ) * p = p * 1 by ring, evRec_mul_r1]
      have hchildle := br_ge_ev_p1 σ child ro rc hro hrc hchild
      have hvmem : brRec σ 1 child ro rc ≤ M := by
        apply hM
        simp [brVals]
      have hterm : -(evRec σ none child ro (1 * p) rc) ≤ p * M := by
        rw [hlin, ← mul_neg]
        calc p * -(evRec σ none child ro 1 rc) ≤
              p * brRec σ 1 child ro rc :=
              mul_le_mul_of_nonneg_left hchildle hp
          _ ≤ p * M := mul_le_mul_of_nonneg_left hvmem hp
      have htail := brOwn_aux_p1 σ M ps rest ro rc
        (by simpa [EdgeList.length] using hlen)
        (fun q hq => hps q (List.mem_cons_of_mem _ hq)) hro hrc
        (fun v hv => hM v (by simp [brVals, hv])) hrest
      calc -(evRec σ none child ro (1 * p) rc +
            evPlayer σ none 1 ps rest ro 1 rc) =
            -(evRec σ none child ro (1 * p) rc) +
              -(evPlayer σ none 1 ps rest ro 1 rc) := by ring
        _ ≤ p * M + ps.sum * M := by linarith
        _ = (p :: ps).sum * M := by rw [List.sum_cons]; ring

/-- Opponent node case of `br_ge_ev_p1`. -/
theorem brOpp_aux_p1 (σ : String → List ℚ) :
    ∀ (ps : List ℚ) (es : EdgeList) (ro rc : ℚ),
      ps.length = es.length → (∀ p ∈ ps, 0 ≤ p) → 0 ≤ ro → 0 ≤ rc →
      wfEdges σ es = true →
      -(evPlayer σ none 0 ps es ro 1 rc) ≤ brOpp σ 1 ps es ro rc
  | [], .nil, ro, rc, _, _, _, _, _ => by simp [evPlayer, brOpp]
  | [], .cons a c prob child rest, ro, rc, hlen, _, _, _, _ => by
      simp [EdgeList.length] at hlen
  | p :: ps, .nil, ro, rc, hlen, _, _, _, _ => by
      simp [EdgeList.length] at hlen
  | p :: ps, .cons a c prob child rest, ro, rc, hlen, hps, hro, hrc,
      hwf => by
      simp only [wfEdges, Bool.and_eq_true] at hwf
      obtain ⟨hchild, hrest⟩ := hwf
      simp only [evPlayer, brOpp, if_true]
      have hp : (0:ℚ) ≤ p := hps p (List.mem_cons_self _ _)
      have h1 := br_ge_ev_p1 σ child (ro * p) rc (mul_nonneg hro hp) hrc
        hchild
      have h2 := brOpp_aux_p1 σ ps rest ro rc
        (by simpa [EdgeList.length] using hlen)
        (fun q hq => hps q (List.mem_cons_of_mem _ hq)) hro hrc hrest
      linarith
end

/-- Claim C7: for every well-formed strategy table over a game tree and
both players, the best-response value is at least the player's expected
value under the strategy profile minus `1e-9` (here the inequality is in
fact exact, with the `1e-9` slack subtracted): `EV_0 = compute_ev` and
`EV_1 = -compute_ev` (zero-sum). -/
theorem best_response_ge_ev (root : GameNode) (σ : String → List ℚ)
    (hwf : wfStrat σ root = true) :
    bestResponseValue root σ 0 ≥ computeEv root σ - 1 / 10 ^ 9 ∧
      bestResponseValue root σ 1 ≥ -(computeEv root σ) - 1 / 10 ^ 9 := by
  have h0 := br_ge_ev_p0 σ root 1 1 (by norm_num) (by norm_num) hwf
  have h1 := br_ge_ev_p1 σ root 1 1 (by norm_num) (by norm_num) hwf
  rw [computeEv, bestResponseValue, bestResponseValue]
  constructor
  · have h : (1:ℚ) / 10 ^ 9 > 0 := by norm_num
    linarith
  · have h : (1:ℚ) / 10 ^ 9 > 0 := by norm_num
    linarith

/-- Witness for claim C7 on `demoTree` with the uniform strategy. -/
theorem best_response_ge_ev_witness :
    bestResponseValue demoTree demoSigma 0 ≥
        computeEv demoTree demoSigma - 1 / 10 ^ 9 ∧
      bestResponseValue demoTree demoSigma 1 ≥
        -(computeEv demoTree demoSigma) - 1 / 10 ^ 9 :=
  best_response_ge_ev demoTree demoSigma (by decide)

/-- The player-0 reach annihilates the traversal. -/
theorem evRec_zero_r0 (σ : String → List ℚ) (ov : Option (String × Action))
    (n : GameNode) (r1 rc : ℚ) : evRec σ ov n 0 r1 rc = 0 := by
  have h := evRec_mul_r0 σ ov 0 n 1 r1 rc
  simpa using h

/-- The player-1 reach annihilates the traversal. -/
theorem evRec_zero_r1 (σ : String → List ℚ) (ov : Option (String × Action))
    (n : GameNode) (r0 rc : ℚ) : evRec σ ov n r0 0 rc = 0 := by
  have h := evRec_mul_r1 σ ov 0 n r0 1 rc
  simpa using h

/-- When the override action is not legal, the override distribution is all
zeros (the C++ zero vector is never written to). -/
theorem overrideProbs_all_zero (a : Action) :
    ∀ (acts : List Action), a ∉ acts → ∀ p ∈ overrideProbs acts a, p = 0
  | [], _, p, hp => absurd hp (List.not_mem_nil p)
  | b :: rest, hnot, p, hp => by
      have hba : ¬ (b == a) = true := by
        simp only [beq_iff_eq]
        intro hcon
        exact hnot (hcon ▸ List.mem_cons_self b rest)
      rw [overrideProbs, if_neg hba] at hp
      rcases List.mem_cons.mp hp with rfl | hp'
      · rfl
      · exact overrideProbs_all_zero a rest
          (fun hmem => hnot (List.mem_cons_of_mem b hmem)) p hp'

/-- A player node whose action distribution is all zeros contributes `0`:
every child is reached with a zero reach factor. -/
theorem evPlayer_zeros (σ : String → List ℚ)
    (ov : Option (String × Action)) (pl : ℤ) :
    ∀ (ps : List ℚ) (es : EdgeList) (r0 r1 rc : ℚ),
      (∀ p ∈ ps, p = 0) → evPlayer σ ov pl ps es r0 r1 rc = 0
  | [], es, r0, r1, rc, _ => by cases es <;> simp [evPlayer]
  | p :: ps, .nil, r0, r1, rc, _ => by simp [evPlayer]
  | p :: ps, .cons a c prob child rest, r0, r1, rc, hz => by
      have hp : p = 0 := hz p (List.mem_cons_self _ _)
      subst hp
      simp only [evPlayer, mul_zero]
      rw [evPlayer_zeros σ ov pl ps rest r0 r1 rc
        (fun q hq => hz q (List.mem_cons_of_mem _ hq))]
      by_cases hpl : pl = 0
      · rw [if_pos hpl, evRec_zero_r0]
        ring
      · rw [if_neg hpl, evRec_zero_r1]
        ring

mutual
/-- Overriding with an action that is illegal at every node of the
overridden info set makes the traversal behave as if each such node (and
its entire subtree) were replaced by a zero-payoff terminal. -/
theorem evOverride_prune (σ : String → List ℚ) (I : String) (a : Action) :
    ∀ (n : GameNode) (r0 r1 rc : ℚ), actionAbsentAt I a n = true →
      evRec σ (some (I, a)) n r0 r1 rc = evRec σ none (pruneAt I n) r0 r1 rc
  | .mk ty pl isId acts cs payoff pot hist p0c p1c pub, r0, r1, rc, habs => by
      simp only [actionAbsentAt, Bool.and_eq_true] at habs
      obtain ⟨hhere, hedges⟩ := habs
      cases ty with
      | Terminal =>
          rw [pruneAt, if_neg (by simp)]
          simp only [evRec]
      | Chance =>
          rw [pruneAt, if_neg (by simp)]
          simp only [evRec]
          exact evOverride_prune_chance σ I a cs r0 r1 rc hedges
      | Player =>
          by_cases hid : isId = I
          · subst hid
            rw [pruneAt, if_pos ⟨rfl, rfl⟩]
            simp only [evRec, beq_self_eq_true, if_true, if_pos]
            have hnotin : a ∉ acts := by
              simpa using hhere
            rw [evPlayer_zeros σ (some (isId, a)) pl
              (overrideProbs acts a) cs r0 r1 rc
              (overrideProbs_all_zero a acts hnotin)]
            ring
          · rw [pruneAt, if_neg (by simp [hid])]
            simp only [evRec]
            have hne : ¬ (I == isId) = true := by
              simp only [beq_iff_eq]
              exact fun hcon => hid hcon.symm
            rw [if_neg hne]
            exact evOverride_prune_player σ I a pl (σ isId) cs r0 r1 rc
              hedges

/-- Chance-edge case of `evOverride_prune`. -/
theorem evOverride_prune_chance (σ : String → List ℚ) (I : String)
    (a : Action) :
    ∀ (es : EdgeList) (r0 r1 rc : ℚ), actionAbsentEdges I a es = true →
      evChance σ (some (I, a)) es r0 r1 rc =
        evChance σ none (pruneEdges I es) r0 r1 rc
  | .nil, r0, r1, rc, _ => by simp [evChance, pruneEdges]
  | .cons ac c prob child rest, r0, r1, rc, habs => by
      simp only [actionAbsentEdges, Bool.and_eq_true] at habs
      obtain ⟨hchild, hrest⟩ := habs
      simp only [evChance, pruneEdges]
      rw [evOverride_prune σ I a child r0 r1 _ hchild,
        evOverride_prune_chance σ I a rest r0 r1 rc hrest]

/-- Player-edge case of `evOverride_prune`. -/
theorem evOverride_prune_player (σ : String → List ℚ) (I : String)
    (a : Action) (pl : ℤ) :
    ∀ (ps : List ℚ) (es : EdgeList) (r0 r1 rc : ℚ),
      actionAbsentEdges I a es = true →
      evPlayer σ (some (I, a)) pl ps es r0 r1 rc =
        evPlayer σ none pl ps (pruneEdges I es) r0 r1 rc
  | [], es, r0, r1, rc, _ => by
      cases es <;> simp [evPlayer, pruneEdges]
  | p :: ps, .nil, r0, r1, rc, _ => by simp [evPlayer, pruneEdges]
  | p :: ps, .cons ac c prob child rest, r0, r1, rc, habs => by
      simp only [actionAbsentEdges, Bool.and_eq_true] at habs
      obtain ⟨hchild, hrest⟩ := habs
      simp only [evPlayer, pruneEdges]
      rw [evOverride_prune_player σ I a pl ps rest r0 r1 rc hrest]
      by_cases hpl : pl = 0
      · rw [if_pos hpl, if_pos hpl, evOverride_prune σ I a child _ r1 rc
          hchild]
      · rw [if_neg hpl, if_neg hpl, evOverride_prune σ I a child r0 _ rc
          hchild]
end

/-- Claim C10: `compute_ev_with_override` with an action that is not legal
at the overridden info set raises no error (it is a total computation) and
returns the expected value of the tree in which every node of that info set
assigns probability zero to all of its actions — equivalently, in which
each such node's entire subtree is replaced by a zero-payoff terminal and
so contributes `0`. -/
theorem compute_ev_override_illegal (root : GameNode)
    (σ : String → List ℚ) (I : String) (a : Action)
    (habs : actionAbsentAt I a root = true) :
    computeEvWithOverride root σ I a = computeEv (pruneAt I root) σ := by
  rw [computeEvWithOverride, computeEv]
  exact evOverride_prune σ I a root 1 1 1 habs

/-- Witness for claim C10: the `Fold` action is not legal at the single
info set of `demoTree`. -/
theorem compute_ev_override_illegal_witness :
    computeEvWithOverride demoTree demoSigma "I" Action.Fold =
      computeEv (pruneAt "I" demoTree) demoSigma :=
  compute_ev_override_illegal demoTree demoSigma "I" Action.Fold (by decide)

end TraversalTheorems

end QuantNet
